import Mathlib

/-!
Verification development for the duration core of the `time-rs` repository:
a shallow embedding of `src/duration/mod.rs` (parser, formatter, rounding
kernel and arithmetic) together with theorems about the embedded code.

Strings are modelled as lists of bytes (`List Nat`, each entry a byte value),
machine integers as `Nat`/`Int` with explicit `% 2 ^ 64` where the Rust code
can wrap, and the positive finite IEEE-754 doubles used by the parser's
fractional path as exact rationals (unreduced numerator/denominator pairs)
rounded to 53 significant bits with ties to even after every operation.
-/

namespace TimeRs

/-- ASCII digit test on a byte, mirroring `c.is_ascii_digit()`. -/
def isDigit (c : ℕ) : Bool := decide (0x30 ≤ c) && decide (c ≤ 0x39)

/-! ### Exact model of positive finite IEEE-754 binary64 values

The parser computes the fractional contribution of a term with `f64`
arithmetic: `(f as f64) * (unit as f64 / scale)`.  All values reached there
are positive and far from the overflow/underflow thresholds, so binary64
arithmetic is exactly: compute the rational result, then round it to 53
significant bits with ties to even.  We model a double by the exact rational
it denotes, kept as an unreduced fraction of naturals. -/

/-- Fueled floor of the base-2 logarithm: for `1 ≤ n < 2 ^ fuel`,
`ilog2 fuel n` is the largest `k` with `2 ^ k ≤ n`. -/
def ilog2 : ℕ → ℕ → ℕ
  | 0, _ => 0
  | fuel + 1, n => if 2 ≤ n then ilog2 fuel (n / 2) + 1 else 0

/-- Value of a positive finite double: an unreduced fraction `num / den`. -/
structure F64 where
  num : ℕ
  den : ℕ
deriving DecidableEq

/-- Floor of the base-2 logarithm of `a / b`, for `1 ≤ a, b < 2 ^ 320`. -/
def flog2 (a b : ℕ) : ℤ :=
  let d : ℤ := (ilog2 320 a : ℤ) - (ilog2 320 b : ℤ)
  if 0 ≤ d then (if 2 ^ d.toNat * b ≤ a then d else d - 1)
  else (if b ≤ 2 ^ (-d).toNat * a then d else d - 1)

/-- Round the positive rational `a / b` to 53 significant bits, ties to even:
the rounding binary64 arithmetic applies to each operation result. -/
def rnd (a b : ℕ) : F64 :=
  if a = 0 ∨ b = 0 then ⟨0, 1⟩ else
  let e := flog2 a b
  let A := if 0 ≤ 52 - e then a * 2 ^ (52 - e).toNat else a
  let B := if 0 ≤ 52 - e then b else b * 2 ^ (e - 52).toNat
  let m0 := A / B
  let r := A % B
  let m := if 2 * r < B then m0
           else if B < 2 * r then m0 + 1
           else if m0 % 2 = 0 then m0 else m0 + 1
  if 0 ≤ e - 52 then ⟨m * 2 ^ (e - 52).toNat, 1⟩ else ⟨m, 2 ^ (52 - e).toNat⟩

/-- The double nearest to a `u64`, as in `f as f64`. -/
def f64ofNat (n : ℕ) : F64 := rnd n 1

/-- Double multiplication. -/
def fmul (x y : F64) : F64 := rnd (x.num * y.num) (x.den * y.den)

/-- Double division. -/
def fdiv (x y : F64) : F64 := rnd (x.num * y.den) (x.den * y.num)

/-- The cast `as u64` on a nonnegative double: truncate toward zero,
saturating at `2 ^ 64 - 1`. -/
def f64toU64 (x : F64) : ℕ := min (x.num / x.den) (2 ^ 64 - 1)

/-! ### Parser -/

/-- Error type of the parser, mirroring `DurationParseError` in
`src/errors.rs`: a closed taxonomy of three variants. -/
inductive DurationParseError where
  | Invalid
  | MissUnit
  | UnknownUnit (unit : List ℕ)
deriving DecidableEq

/-- Accumulator loop of `leading_int`: consume leading ASCII digits into `x`,
failing (like the `Err` branches of the source) once `x` would pass `2 ^ 63`. -/
def leading_int : List ℕ → ℕ → Option (ℕ × List ℕ)
  | [], x => some (x, [])
  | c :: s, x =>
    if isDigit c = false then some (x, c :: s)
    else if 2 ^ 63 / 10 < x then none
    else
      let x1 := x * 10 + (c - 0x30)
      if 2 ^ 63 < x1 then none
      else leading_int s x1

/-- Accumulator loop of `leading_fraction`: consume leading ASCII digits into
the `i64` accumulator `x`, multiplying the double `scale` by `10.0` for each
digit kept; once `x` would pass `i64::MAX / 10` (or the `i64` addition would
wrap negative), further digits are consumed but discarded. -/
def leading_fraction : List ℕ → ℕ → F64 → Bool → ℕ × F64 × List ℕ
  | [], x, scale, _ => (x, scale, [])
  | c :: s, x, scale, overflow =>
    if isDigit c = false then (x, scale, c :: s)
    else if overflow then leading_fraction s x scale overflow
    else if (2 ^ 63 - 1) / 10 < x then leading_fraction s x scale true
    else
      let y := x * 10 + (c - 0x30)
      if 2 ^ 63 ≤ y then leading_fraction s x scale true
      else leading_fraction s y (fmul scale ⟨10, 1⟩) overflow

/-- Length of the unit suffix: the run of leading bytes that are neither `.`
nor an ASCII digit. -/
def unit_len : List ℕ → ℕ
  | [] => 0
  | c :: s => if c = 0x2e ∨ isDigit c = true then 0 else unit_len s + 1

/-- The fixed unit table (`UNIT_MAP`), keyed by UTF-8 byte sequences. -/
def unit_map (u : List ℕ) : Option ℕ :=
  if u = [0x6e, 0x73] then some 1
  else if u = [0x75, 0x73] then some 1000
  else if u = [0xc2, 0xb5, 0x73] then some 1000
  else if u = [0xce, 0xbc, 0x73] then some 1000
  else if u = [0x6d, 0x73] then some 1000000
  else if u = [0x73] then some 1000000000
  else if u = [0x6d] then some 60000000000
  else if u = [0x68] then some 3600000000000
  else none

/-- Optional fractional part of a term: when the input starts with `.`,
consume it and run `leading_fraction`; the last component records whether
any fractional digit was consumed (the source's `post`). -/
def parse_frac : List ℕ → ℕ × F64 × List ℕ × Bool
  | [] => (0, ⟨0, 1⟩, [], false)
  | c :: s1a =>
    if c = 0x2e then
      match leading_fraction s1a 0 ⟨1, 1⟩ false with
      | (f, scale, s2) => (f, scale, s2, decide (s2.length ≠ s1a.length))
    else (0, ⟨0, 1⟩, c :: s1a, false)

/-- The term's fractional contribution to the magnitude, as the source
computes it: `((f as f64) * (unit as f64 / scale)) as u64`. -/
def frac_contrib (f unit : ℕ) (scale : F64) : ℕ :=
  f64toU64 (fmul (f64ofNat f) (fdiv (f64ofNat unit) scale))

/-- One iteration of the term loop in `FromStr::from_str`: parse
`number unit` at the head of `s` and return the term's contribution to the
unsigned magnitude together with the remaining input. -/
def parse_term : List ℕ → Except DurationParseError (ℕ × List ℕ)
  | [] => .error .Invalid
  | c0 :: s0 =>
    if ¬ (c0 = 0x2e ∨ isDigit c0 = true) then .error .Invalid
    else
      match leading_int (c0 :: s0) 0 with
      | none => .error .Invalid
      | some (v, s1) =>
        match parse_frac s1 with
        | (f, scale, s2, post) =>
          if s1.length = (c0 :: s0).length ∧ post = false then .error .Invalid
          else if unit_len s2 = 0 then .error .MissUnit
          else
            match unit_map (s2.take (unit_len s2)) with
            | none => .error (.UnknownUnit (s2.take (unit_len s2)))
            | some unit =>
              if 2 ^ 63 / unit < v then .error .Invalid
              else if 0 < f then
                if 2 ^ 63 < (v * unit + frac_contrib f unit scale) % 2 ^ 64 then
                  .error .Invalid
                else .ok ((v * unit + frac_contrib f unit scale) % 2 ^ 64,
                  s2.drop (unit_len s2))
              else .ok (v * unit, s2.drop (unit_len s2))

/-- The term loop of `FromStr::from_str`, accumulating the unsigned magnitude
`d` as a `u64` (wrapping add, then the `d > 2 ^ 63` overflow check).  The
fuel argument only bounds the iteration count; `from_str` passes one more
than the input length, and every successful iteration consumes at least one
byte, so the fuel is never exhausted. -/
def terms_loop : ℕ → List ℕ → ℕ → Except DurationParseError ℕ
  | _, [], d => .ok d
  | 0, _ :: _, _ => .error .Invalid
  | fuel + 1, c :: s, d =>
    match parse_term (c :: s) with
    | .error e => .error e
    | .ok (v, rest) =>
      if 2 ^ 63 < (d + v) % 2 ^ 64 then .error .Invalid
      else terms_loop fuel rest ((d + v) % 2 ^ 64)

/-- Final sign application of `FromStr::from_str`: reinterpret the unsigned
magnitude as an `i64` (two's complement) when negative, negating unless the
result is `i64::MIN`; when positive, reject magnitudes above `2 ^ 63 - 1`. -/
def finalize (neg : Bool) (d : ℕ) : Except DurationParseError Int :=
  if neg then
    let di : Int := if d < 2 ^ 63 then (d : Int) else (d : Int) - 2 ^ 64
    .ok (if di = -(2 ^ 63) then di else -di)
  else if 2 ^ 63 - 1 < d then .error .Invalid
  else .ok (d : Int)

/-- The parser `FromStr::from_str` over the input's UTF-8 bytes. -/
def from_str (s0 : List ℕ) : Except DurationParseError Int :=
  let neg : Bool :=
    match s0 with
    | c :: _ => decide (c = 0x2d)
    | [] => false
  let s : List ℕ :=
    match s0 with
    | c :: rest => if c = 0x2d ∨ c = 0x2b then rest else s0
    | [] => []
  if s = [0x30] then .ok 0
  else if s = [] then .error .Invalid
  else
    match terms_loop (s.length + 1) s 0 with
    | .error e => .error e
    | .ok d => finalize neg d

/-! ### Formatter -/

/-- Digit loop of `fmt_frac`: peel `prec` low decimal digits off `v`,
printing (to the left) from the first nonzero digit on. -/
def fmt_frac_go : ℕ → ℕ → Bool → List ℕ → List ℕ × ℕ
  | 0, v, print, acc => ((if print then 0x2e :: acc else acc), v)
  | p + 1, v, print, acc =>
    let digit := v % 10
    let print1 := print || decide (digit ≠ 0)
    fmt_frac_go p (v / 10) print1 (if print1 then (digit + 0x30) :: acc else acc)

/-- Formats the fraction `v / 10 ^ prec` (omitting trailing zeros, preceded
by `.` when nonzero) and returns it with `v / 10 ^ prec`. -/
def fmt_frac (v : ℕ) (prec : ℕ) : List ℕ × ℕ := fmt_frac_go prec v false []

/-- Digit loop of `fmt_int` for positive `v`; the fuel 32 exceeds the digit
count of any `u64`. -/
def fmt_int_go : ℕ → ℕ → List ℕ → List ℕ
  | 0, _, acc => acc
  | fuel + 1, v, acc =>
    if v = 0 then acc else fmt_int_go fuel (v / 10) ((v % 10 + 0x30) :: acc)

/-- Decimal representation of `v`; a single `0` for `v = 0`. -/
def fmt_int (v : ℕ) : List ℕ := if v = 0 then [0x30] else fmt_int_go 32 v []

/-- Body of `Display::fmt` for the unsigned magnitude `u` (the buffer
contents before the sign byte): sub-second magnitudes use `ns`, `µs` or `ms`
with precision 0, 3 or 6; larger magnitudes use seconds with precision 9,
then minutes and hours as needed. -/
def format_body (u : ℕ) : List ℕ :=
  if u < 1000000000 then
    if u = 0 then [0x30, 0x73]
    else
      let pu : List ℕ × ℕ :=
        if u < 1000 then ([0x6e, 0x73], 0)
        else if u < 1000000 then ([0xc2, 0xb5, 0x73], 3)
        else ([0x6d, 0x73], 6)
      let fr := fmt_frac u pu.2
      fmt_int fr.2 ++ fr.1 ++ pu.1
  else
    let fr := fmt_frac u 9
    let u1 := fr.2
    let sec := fmt_int (u1 % 60) ++ fr.1 ++ [0x73]
    let u2 := u1 / 60
    if 0 < u2 then
      let mins := fmt_int (u2 % 60) ++ [0x6d] ++ sec
      let u3 := u2 / 60
      if 0 < u3 then fmt_int u3 ++ [0x68] ++ mins else mins
    else sec

/-- The literal the formatter emits for `i64::MIN`,
`-2562047h47m16.854775808s`. -/
def minBytes : List ℕ :=
  [0x2d, 0x32, 0x35, 0x36, 0x32, 0x30, 0x34, 0x37, 0x68, 0x34, 0x37, 0x6d,
   0x31, 0x36, 0x2e, 0x38, 0x35, 0x34, 0x37, 0x37, 0x35, 0x38, 0x30, 0x38, 0x73]

/-- The formatter `Display::fmt`: the `i64::MIN` literal, else the sign byte
(for negative inputs) followed by the magnitude body. -/
def format (d : Int) : List ℕ :=
  if d = -(2 ^ 63) then minBytes
  else if d < 0 then 0x2d :: format_body d.natAbs
  else format_body d.natAbs

/-! ### Duration arithmetic and the rounding kernel -/

/-- Largest representable duration, `i64::MAX` nanoseconds. -/
def MAX : Int := 2 ^ 63 - 1

/-- Smallest representable duration, `i64::MIN` nanoseconds. -/
def MIN : Int := -(2 ^ 63)

/-- Absolute value (`Duration::abs`): saturates at `MIN`, which maps to `MAX`. -/
def abs (d : Int) : Int := if 0 ≤ d then d else if d = MIN then MAX else -d

/-- Negation (`Neg::neg`): `MIN` is its own negation (saturation). -/
def neg (d : Int) : Int := if d = MIN then MIN else -d

/-- Two's-complement wrap of an integer into the `i64` range. -/
def wrap64 (x : Int) : Int := (x + 2 ^ 63) % 2 ^ 64 - 2 ^ 63

/-- Addition (`Add::add`), wrapping two's complement. -/
def add (a b : Int) : Int := wrap64 (a + b)

/-- Subtraction (`Sub::sub`), wrapping two's complement. -/
def sub (a b : Int) : Int := wrap64 (a - b)

/-- Multiplication by an integer (`Mul::mul`), wrapping two's complement. -/
def mul (a b : Int) : Int := wrap64 (a * b)

/-- Division of a duration by a duration (`Div::div`).  The Rust body is the
`i64` quotient `self.0 / rhs.0`, which rounds toward zero and panics when the
divisor is zero or when the quotient `MIN / -1` overflows; the panic cases
are modelled as `none`. -/
def div (a b : Int) : Option Int :=
  if b = 0 then none
  else if a = MIN ∧ b = -1 then none
  else some (Int.tdiv a b)

/-- The helper `less_than_half`: compares `2 * x < y` with the operands cast
to `u64` and the doubling performed as a wrapping left shift. -/
def less_than_half (x y : Int) : Bool :=
  decide ((((x % 2 ^ 64).toNat * 2) % 2 ^ 64) < (y % 2 ^ 64).toNat)

/-- Rounding to the nearest multiple of `m` (`Duration::round`): halfway
values round away from zero, overflow saturates to `MAX` / `MIN`, and
`m ≤ 0` returns the duration unchanged.  The `checked_sub` / `checked_add`
calls of the source are modelled by the explicit range tests. -/
def round (d0 m0 : Int) : Int :=
  if m0 ≤ 0 then d0
  else
    if d0 < 0 then
      if less_than_half (-Int.tmod d0 m0) m0 then d0 + -Int.tmod d0 m0
      else if MIN ≤ d0 + -Int.tmod d0 m0 - m0 ∧ d0 + -Int.tmod d0 m0 - m0 ≤ MAX then
        d0 + -Int.tmod d0 m0 - m0
      else MIN
    else
      if less_than_half (Int.tmod d0 m0) m0 then d0 - Int.tmod d0 m0
      else if MIN ≤ d0 - Int.tmod d0 m0 + m0 ∧ d0 - Int.tmod d0 m0 + m0 ≤ MAX then
        d0 - Int.tmod d0 m0 + m0
      else MAX

/-- Rounding toward zero to a multiple of `m` (`Duration::truncate`);
`m ≤ 0` returns the duration unchanged.  `Int.tmod` is the Rust `%`
(remainder with the sign of the dividend). -/
def truncate (d m : Int) : Int := if m ≤ 0 then d else d - Int.tmod d m

deriving instance DecidableEq for Except

/-! ### Helper lemmas on the Rust remainder (`Int.tmod`) -/

theorem tmod_neg_left (a b : ℤ) : Int.tmod (-a) b = -Int.tmod a b := by
  rw [Int.tmod_def, Int.tmod_def, Int.neg_tdiv]
  ring

theorem tmod_nonpos_of_nonpos {a : ℤ} (b : ℤ) (h : a ≤ 0) : Int.tmod a b ≤ 0 := by
  have h2 : 0 ≤ Int.tmod (-a) b := Int.tmod_nonneg b (by omega)
  rw [tmod_neg_left] at h2
  omega

theorem neg_tmod_lt_of_pos (a : ℤ) {b : ℤ} (h : 0 < b) : -b < Int.tmod a b := by
  have h2 : Int.tmod (-a) b < b := Int.tmod_lt_of_pos (-a) h
  rw [tmod_neg_left] at h2
  omega

theorem tdiv_nonpos_of_nonpos {a b : ℤ} (ha : a ≤ 0) (hb : 0 ≤ b) : Int.tdiv a b ≤ 0 := by
  have h2 : 0 ≤ Int.tdiv (-a) b := Int.tdiv_nonneg (by omega) hb
  rw [Int.neg_tdiv] at h2
  omega

theorem sub_tmod_eq_mul_tdiv (d m : ℤ) : d - Int.tmod d m = m * Int.tdiv d m := by
  have h := Int.tmod_add_tdiv d m
  omega

/-- The unsigned-shift comparison agrees with `2 * x < y` on the operand
ranges `round` uses it for. -/
theorem less_than_half_eq (x y : ℤ) (hx : 0 ≤ x) (hx2 : x < 2 ^ 63)
    (hy : 0 ≤ y) (hy2 : y < 2 ^ 64) :
    less_than_half x y = decide (2 * x < y) := by
  unfold less_than_half
  rw [decide_eq_decide]
  omega

/-- Branch-level characterization of `round` for a positive modulus in the
`i64` range: subtract the remainder when it is less than half of `m`,
otherwise move to the far multiple, saturating at `MAX` / `MIN`. -/
theorem round_char (d m : ℤ) (hm : 0 < m) (hM : m ≤ 2 ^ 63 - 1) :
    round d m =
      if 0 ≤ d then
        (if 2 * Int.tmod d m < m then d - Int.tmod d m
         else if d - Int.tmod d m + m ≤ 2 ^ 63 - 1 then d - Int.tmod d m + m
         else 2 ^ 63 - 1)
      else
        (if 2 * -Int.tmod d m < m then d - Int.tmod d m
         else if -(2 ^ 63) ≤ d - Int.tmod d m - m then d - Int.tmod d m - m
         else -(2 ^ 63)) := by
  have hrlt : Int.tmod d m < m := Int.tmod_lt_of_pos d hm
  have hrgt : -m < Int.tmod d m := neg_tmod_lt_of_pos d hm
  have hqd := sub_tmod_eq_mul_tdiv d m
  unfold round
  rw [if_neg (by omega : ¬ m ≤ 0)]
  by_cases hd : d < 0
  · have hr0 : Int.tmod d m ≤ 0 := tmod_nonpos_of_nonpos m (by omega)
    have hq0 : Int.tdiv d m ≤ 0 := tdiv_nonpos_of_nonpos (by omega) (by omega)
    have ht0 : m * Int.tdiv d m ≤ 0 := mul_nonpos_of_nonneg_of_nonpos (by omega) hq0
    rw [if_pos hd, if_neg (by omega : ¬ 0 ≤ d),
      less_than_half_eq (-Int.tmod d m) m (by omega) (by omega) (by omega) (by omega)]
    simp only [decide_eq_true_eq, MIN, MAX]
    by_cases hh : 2 * -Int.tmod d m < m
    · rw [if_pos hh, if_pos hh]
      ring
    · rw [if_neg hh, if_neg hh]
      by_cases hs : -(2 ^ 63) ≤ d - Int.tmod d m - m
      · rw [if_pos (by constructor <;> omega), if_pos hs]
        ring
      · rw [if_neg (by omega), if_neg hs]
  · have hr0 : 0 ≤ Int.tmod d m := Int.tmod_nonneg m (by omega)
    have hq0 : 0 ≤ Int.tdiv d m := Int.tdiv_nonneg (by omega) (by omega)
    have ht0 : 0 ≤ m * Int.tdiv d m := mul_nonneg (by omega) hq0
    rw [if_neg hd, if_pos (by omega : (0:ℤ) ≤ d),
      less_than_half_eq (Int.tmod d m) m (by omega) (by omega) (by omega) (by omega)]
    simp only [decide_eq_true_eq, MIN, MAX]
    by_cases hh : 2 * Int.tmod d m < m
    · rw [if_pos hh, if_pos hh]
    · rw [if_neg hh, if_neg hh]
      by_cases hs : d - Int.tmod d m + m ≤ 2 ^ 63 - 1
      · rw [if_pos (by constructor <;> omega), if_pos hs]
      · rw [if_neg (by omega), if_neg hs]

/-! ### Claims about the rounding kernel -/

/-- C8: for `m ≤ 0` both `truncate` and `round` return `d` unchanged; for
`m > 0`, `truncate d m = d - (d tmod m)` with the C-style remainder, so
truncation moves toward zero: the result is zero or has the sign of `d`,
and its magnitude is at most that of `d`. -/
theorem truncate_toward_zero (d m : ℤ) :
    (m ≤ 0 → truncate d m = d ∧ round d m = d) ∧
    (0 < m →
      truncate d m = d - Int.tmod d m ∧
      (truncate d m = 0 ∨ Int.sign (truncate d m) = Int.sign d) ∧
      (truncate d m).natAbs ≤ d.natAbs) := by
  constructor
  · intro hm
    unfold truncate round
    rw [if_pos hm, if_pos hm]
    exact ⟨rfl, rfl⟩
  · intro hm
    have htr : truncate d m = d - Int.tmod d m := by
      unfold truncate
      rw [if_neg (by omega)]
    refine ⟨htr, ?_, ?_⟩
    · rw [htr]
      by_cases h0 : d - Int.tmod d m = 0
      · exact Or.inl h0
      · refine Or.inr ?_
        rcases lt_trichotomy d 0 with hd | hd | hd
        · have hr : Int.tmod d m ≤ 0 := tmod_nonpos_of_nonpos m (by omega)
          have hq : Int.tdiv d m ≤ 0 := tdiv_nonpos_of_nonpos (by omega) (by omega)
          have ht : m * Int.tdiv d m ≤ 0 := mul_nonpos_of_nonneg_of_nonpos (by omega) hq
          have hqd := sub_tmod_eq_mul_tdiv d m
          rw [Int.sign_eq_neg_one_of_neg (by omega), Int.sign_eq_neg_one_of_neg hd]
        · subst hd
          simp at h0
        · have hr : 0 ≤ Int.tmod d m := Int.tmod_nonneg m (by omega)
          have hq : 0 ≤ Int.tdiv d m := Int.tdiv_nonneg (by omega) (by omega)
          have ht : 0 ≤ m * Int.tdiv d m := mul_nonneg (by omega) hq
          have hqd := sub_tmod_eq_mul_tdiv d m
          rw [Int.sign_eq_one_of_pos (by omega), Int.sign_eq_one_of_pos hd]
    · rw [htr]
      rcases le_or_lt 0 d with hd | hd
      · have hr : 0 ≤ Int.tmod d m := Int.tmod_nonneg m hd
        have hq : 0 ≤ Int.tdiv d m := Int.tdiv_nonneg hd (by omega)
        have ht : 0 ≤ m * Int.tdiv d m := mul_nonneg (by omega) hq
        have hqd := sub_tmod_eq_mul_tdiv d m
        omega
      · have hr : Int.tmod d m ≤ 0 := tmod_nonpos_of_nonpos m (by omega)
        have hq : Int.tdiv d m ≤ 0 := tdiv_nonpos_of_nonpos (by omega) (by omega)
        have ht : m * Int.tdiv d m ≤ 0 := mul_nonpos_of_nonneg_of_nonpos (by omega) hq
        have hqd := sub_tmod_eq_mul_tdiv d m
        omega

/-- Witness for C8 at `d = -7`, `m = 3`. -/
theorem truncate_toward_zero_witness :
    ((0:ℤ) < 3) ∧ truncate (-7) 3 = -7 - Int.tmod (-7) 3 ∧
      (truncate (-7) 3 = 0 ∨ Int.sign (truncate (-7) 3) = Int.sign (-7)) ∧
      (truncate (-7) 3).natAbs ≤ ((-7 : ℤ)).natAbs :=
  ⟨by decide, (truncate_toward_zero (-7) 3).2 (by decide)⟩

/-- C7: for `0 < m` not causing saturation, the distance from `d` to
`round d m` is at most `m / 2`, a distance of exactly `m / 2` (a tie) moves
away from zero, and on overflow `round` saturates to `MAX` for `d ≥ 0` and
to `MIN` for `d < 0`. -/
theorem round_bounds_and_saturation (d m : ℤ) (hd1 : MIN ≤ d) (hd2 : d ≤ MAX)
    (hm : 0 < m) (hmM : m ≤ MAX) :
    (((0 ≤ d → d - Int.tmod d m + m ≤ MAX ∨ 2 * Int.tmod d m < m) ∧
      (d < 0 → MIN ≤ d - Int.tmod d m - m ∨ 2 * -Int.tmod d m < m)) →
      2 * (d - round d m).natAbs ≤ m.natAbs ∧
      (2 * (d - round d m).natAbs = m.natAbs → d.natAbs < (round d m).natAbs)) ∧
    (0 ≤ d → m ≤ 2 * Int.tmod d m → MAX < d - Int.tmod d m + m → round d m = MAX) ∧
    (d < 0 → m ≤ 2 * -Int.tmod d m → d - Int.tmod d m - m < MIN → round d m = MIN) := by
  have hrlt : Int.tmod d m < m := Int.tmod_lt_of_pos d hm
  have hrgt : -m < Int.tmod d m := neg_tmod_lt_of_pos d hm
  have hchar := round_char d m hm (by simpa [MAX] using hmM)
  simp only [MIN, MAX] at hchar hd1 hd2 hmM ⊢
  rcases le_or_lt 0 d with hd | hd
  · have hr : 0 ≤ Int.tmod d m := Int.tmod_nonneg m hd
    have hq : 0 ≤ Int.tdiv d m := Int.tdiv_nonneg hd (by omega)
    have ht : 0 ≤ m * Int.tdiv d m := mul_nonneg (by omega) hq
    have hqd := sub_tmod_eq_mul_tdiv d m
    rw [if_pos hd] at hchar
    refine ⟨?_, ?_, ?_⟩
    · intro hns
      rcases hns.1 hd with hsat | hlt
      · by_cases hh : 2 * Int.tmod d m < m
        · rw [if_pos hh] at hchar
          omega
        · rw [if_neg hh, if_pos (by omega)] at hchar
          omega
      · rw [if_pos hlt] at hchar
        omega
    · intro _ hh hover
      rw [if_neg (by omega), if_neg (by omega)] at hchar
      exact hchar
    · intro h
      omega
  · have hr : Int.tmod d m ≤ 0 := tmod_nonpos_of_nonpos m (by omega)
    have hq : Int.tdiv d m ≤ 0 := tdiv_nonpos_of_nonpos (by omega) (by omega)
    have ht : m * Int.tdiv d m ≤ 0 := mul_nonpos_of_nonneg_of_nonpos (by omega) hq
    have hqd := sub_tmod_eq_mul_tdiv d m
    rw [if_neg (by omega)] at hchar
    refine ⟨?_, ?_, ?_⟩
    · intro hns
      rcases hns.2 hd with hsat | hlt
      · by_cases hh : 2 * -Int.tmod d m < m
        · rw [if_pos hh] at hchar
          omega
        · rw [if_neg hh, if_pos (by omega)] at hchar
          omega
      · rw [if_pos hlt] at hchar
        omega
    · intro h
      omega
    · intro _ hh hover
      rw [if_neg (by omega), if_neg (by omega)] at hchar
      exact hchar

/-- Witness for C7 at `d = 7`, `m = 4` (remainder 3, rounds up). -/
theorem round_bounds_and_saturation_witness :
    2 * ((7:ℤ) - round 7 4).natAbs ≤ (4:ℤ).natAbs :=
  ((round_bounds_and_saturation 7 4 (by decide) (by decide) (by decide) (by decide)).1
    (by decide)).1

/-- C10: for `m > 0`, `truncate d m` is an exact multiple of `m`, within `m`
of `d`, no larger than `d` in magnitude, and closest to `d` among the
multiples of `m` lying between `0` and `d`; when `round d m` does not
saturate it is an exact multiple of `m` and at least as close to `d` as any
multiple of `m`. -/
theorem round_truncate_multiples (d m : ℤ) (hm : 0 < m) :
    m ∣ truncate d m ∧ (d - truncate d m).natAbs < m.natAbs ∧
    (truncate d m).natAbs ≤ d.natAbs ∧
    (∀ y : ℤ, m ∣ y → ((0 ≤ y ∧ y ≤ d) ∨ (d ≤ y ∧ y ≤ 0)) →
      (d - truncate d m).natAbs ≤ (d - y).natAbs) ∧
    (MIN ≤ d → d ≤ MAX → m ≤ MAX →
      ((0 ≤ d → d - Int.tmod d m + m ≤ MAX ∨ 2 * Int.tmod d m < m) ∧
       (d < 0 → MIN ≤ d - Int.tmod d m - m ∨ 2 * -Int.tmod d m < m)) →
      m ∣ round d m ∧
      ∀ y : ℤ, m ∣ y → (d - round d m).natAbs ≤ (d - y).natAbs) := by
  have hrlt : Int.tmod d m < m := Int.tmod_lt_of_pos d hm
  have hrgt : -m < Int.tmod d m := neg_tmod_lt_of_pos d hm
  have hqd := sub_tmod_eq_mul_tdiv d m
  have htr : truncate d m = d - Int.tmod d m := by
    unfold truncate
    rw [if_neg (by omega)]
  have hdvd : m ∣ truncate d m := by
    rw [htr, hqd]
    exact Dvd.intro _ rfl
  refine ⟨hdvd, by rw [htr]; omega, ?_, ?_, ?_⟩
  · rw [htr]
    rcases le_or_lt 0 d with hd | hd
    · have hr : 0 ≤ Int.tmod d m := Int.tmod_nonneg m hd
      have hq : 0 ≤ Int.tdiv d m := Int.tdiv_nonneg hd (by omega)
      have ht : 0 ≤ m * Int.tdiv d m := mul_nonneg (by omega) hq
      omega
    · have hr : Int.tmod d m ≤ 0 := tmod_nonpos_of_nonpos m (by omega)
      have hq : Int.tdiv d m ≤ 0 := tdiv_nonpos_of_nonpos (by omega) (by omega)
      have ht : m * Int.tdiv d m ≤ 0 := mul_nonpos_of_nonneg_of_nonpos (by omega) hq
      omega
  · rintro y ⟨k, rfl⟩ hy
    rw [htr]
    rcases le_or_lt 0 d with hd | hd
    · have hr : 0 ≤ Int.tmod d m := Int.tmod_nonneg m hd
      have hy0 : 0 ≤ m * k ∧ m * k ≤ d := by
        rcases hy with h | h
        · exact h
        · constructor <;> omega
      have hk0 : 0 ≤ k := by
        by_contra hkneg
        have : m * k ≤ m * -1 := mul_le_mul_of_nonneg_left (by omega) (by omega)
        omega
      have hkq : k ≤ Int.tdiv d m := by
        by_contra hkq
        have : m * (Int.tdiv d m + 1) ≤ m * k := mul_le_mul_of_nonneg_left (by omega) (by omega)
        have hexp : m * (Int.tdiv d m + 1) = m * Int.tdiv d m + m := by ring
        omega
      have : m * k ≤ m * Int.tdiv d m := mul_le_mul_of_nonneg_left hkq (by omega)
      omega
    · have hr : Int.tmod d m ≤ 0 := tmod_nonpos_of_nonpos m (by omega)
      have hy0 : d ≤ m * k ∧ m * k ≤ 0 := by
        rcases hy with h | h
        · constructor <;> omega
        · exact h
      have hk0 : k ≤ 0 := by
        by_contra hkneg
        have : m * 1 ≤ m * k := mul_le_mul_of_nonneg_left (by omega) (by omega)
        omega
      have hkq : Int.tdiv d m ≤ k := by
        by_contra hkq
        have : m * k ≤ m * (Int.tdiv d m - 1) := mul_le_mul_of_nonneg_left (by omega) (by omega)
        have hexp : m * (Int.tdiv d m - 1) = m * Int.tdiv d m - m := by ring
        omega
      have : m * Int.tdiv d m ≤ m * k := mul_le_mul_of_nonneg_left hkq (by omega)
      omega
  · intro hd1 hd2 hmM hns
    have hchar := round_char d m hm (by simpa [MAX] using hmM)
    simp only [MIN, MAX] at hchar hd1 hd2 hmM hns
    have hR : round d m = d - Int.tmod d m ∨ round d m = d - Int.tmod d m + m ∨
        round d m = d - Int.tmod d m - m := by
      rcases le_or_lt 0 d with hd | hd
      · rw [if_pos hd] at hchar
        rcases hns.1 hd with hsat | hlt
        · by_cases hh : 2 * Int.tmod d m < m
          · rw [if_pos hh] at hchar
            exact Or.inl hchar
          · rw [if_neg hh, if_pos (by omega)] at hchar
            exact Or.inr (Or.inl hchar)
        · rw [if_pos hlt] at hchar
          exact Or.inl hchar
      · rw [if_neg (by omega)] at hchar
        rcases hns.2 hd with hsat | hlt
        · by_cases hh : 2 * -Int.tmod d m < m
          · rw [if_pos hh] at hchar
            exact Or.inl hchar
          · rw [if_neg hh, if_pos (by omega)] at hchar
            exact Or.inr (Or.inr hchar)
        · rw [if_pos hlt] at hchar
          exact Or.inl hchar
    have hRdvd : m ∣ round d m := by
      rcases hR with h | h | h <;> rw [h, hqd]
      · exact Dvd.intro _ rfl
      · exact ⟨Int.tdiv d m + 1, by ring⟩
      · exact ⟨Int.tdiv d m - 1, by ring⟩
    refine ⟨hRdvd, ?_⟩
    rintro y ⟨k, rfl⟩
    have hRhalf : 2 * (d - round d m).natAbs ≤ m.natAbs :=
      ((round_bounds_and_saturation d m (by simp [MIN]; omega) (by simp [MAX]; omega)
        hm (by simp [MAX]; omega)).1 (by simp [MIN, MAX]; omega)).1
    rcases hRdvd with ⟨j, hj⟩
    rcases lt_trichotomy k j with hkj | hkj | hkj
    · have : m * k ≤ m * (j - 1) := mul_le_mul_of_nonneg_left (by omega) (by omega)
      have hexp : m * (j - 1) = m * j - m := by ring
      omega
    · subst hkj
      omega
    · have : m * (j + 1) ≤ m * k := mul_le_mul_of_nonneg_left (by omega) (by omega)
      have hexp : m * (j + 1) = m * j + m := by ring
      omega

/-- Witness for C10 at `d = -7`, `m = 3`. -/
theorem round_truncate_multiples_witness :
    (3:ℤ) ∣ truncate (-7) 3 ∧ ((-7:ℤ) - truncate (-7) 3).natAbs < (3:ℤ).natAbs :=
  ⟨(round_truncate_multiples (-7) 3 (by decide)).1,
   (round_truncate_multiples (-7) 3 (by decide)).2.1⟩

/-! ### Claims about arithmetic totality, saturation and wrap -/

/-- C9 (counterexample): duration-by-duration division is not total: the
`i64` quotient panics on a zero divisor and on the overflowing quotient
`MIN / -1`; both cases are modelled as `none`. -/
theorem div_not_total_cex : div 1 0 = none ∧ div MIN (-1) = none := by
  constructor <;> decide

/-- C9 (amended): no operation of the core panics except duration division
with a zero divisor or the overflowing `MIN / -1`: on every other pair
division yields the truncated quotient; `add`, `sub` and `mul` wrap in two's
complement (result in the `i64` range and congruent mod `2 ^ 64`); saturation
is confined to `abs MIN = MAX` and `neg MIN = MIN`, and away from `MIN` both
`abs` and `neg` are exact. -/
theorem no_panic_except_div :
    (∀ a b : ℤ, b ≠ 0 → ¬(a = MIN ∧ b = -1) → div a b = some (Int.tdiv a b)) ∧
    (∀ a b : ℤ, MIN ≤ add a b ∧ add a b ≤ MAX ∧ add a b % 2 ^ 64 = (a + b) % 2 ^ 64) ∧
    (∀ a b : ℤ, MIN ≤ sub a b ∧ sub a b ≤ MAX ∧ sub a b % 2 ^ 64 = (a - b) % 2 ^ 64) ∧
    (∀ a b : ℤ, MIN ≤ mul a b ∧ mul a b ≤ MAX ∧ mul a b % 2 ^ 64 = (a * b) % 2 ^ 64) ∧
    abs MIN = MAX ∧ neg MIN = MIN ∧
    (∀ a : ℤ, a ≠ MIN → abs a = |a| ∧ neg a = -a) := by
  refine ⟨?_, ?_, ?_, ?_, by decide, by decide, ?_⟩
  · intro a b hb hab
    unfold div
    rw [if_neg hb, if_neg hab]
  · intro a b
    unfold add wrap64
    simp only [MIN, MAX]
    omega
  · intro a b
    unfold sub wrap64
    simp only [MIN, MAX]
    omega
  · intro a b
    unfold mul wrap64
    simp only [MIN, MAX]
    omega
  · intro a ha
    constructor
    · unfold abs
      rcases le_or_lt 0 a with h | h
      · rw [if_pos h, abs_of_nonneg h]
      · rw [if_neg (by omega), if_neg ha, abs_of_neg h]
    · unfold neg
      rw [if_neg ha]

/-- Witness for C9 at concrete operands. -/
theorem no_panic_except_div_witness :
    div 7 (-2) = some (Int.tdiv 7 (-2)) ∧
    MIN ≤ add MAX MAX ∧ add MAX MAX ≤ MAX ∧ abs (-5) = |(-5 : ℤ)| :=
  ⟨no_panic_except_div.1 7 (-2) (by decide) (by decide),
   (no_panic_except_div.2.1 MAX MAX).1,
   (no_panic_except_div.2.1 MAX MAX).2.1,
   (no_panic_except_div.2.2.2.2.2.2 (-5) (by decide)).1⟩

/-! ### Claims about the parser: errors, overflow boundary, fractions -/

/-- C6: the parser's errors form the closed three-variant taxonomy and are
returned as values: the empty input is `Invalid`, digits without a unit
suffix are `MissUnit`, and an unrecognized suffix is `UnknownUnit` carrying
the offending substring (here `xs`). -/
theorem error_taxonomy :
    from_str [] = .error .Invalid ∧
    from_str [0x35] = .error .MissUnit ∧
    from_str [0x35, 0x78, 0x73] = .error (.UnknownUnit [0x78, 0x73]) ∧
    ∀ e : DurationParseError,
      e = .Invalid ∨ e = .MissUnit ∨ ∃ u, e = .UnknownUnit u := by
  refine ⟨by decide, by decide, by decide, ?_⟩
  intro e
  cases e with
  | Invalid => exact Or.inl rfl
  | MissUnit => exact Or.inr (Or.inl rfl)
  | UnknownUnit u => exact Or.inr (Or.inr ⟨u, rfl⟩)

set_option maxRecDepth 1000000 in
/-- C4: parsing `0.3333333333333333333h` succeeds and yields exactly
`1_200_000_000_000` nanoseconds (twenty minutes); the nineteen retained
fractional digits are the most the `i64` accumulator holds, and longer
tails (as in `0.100000000000000000000h`, twenty-one digits) are silently
discarded rather than rejected. -/
theorem fractional_overflow_truncation :
    from_str [0x30, 0x2e, 0x33, 0x33, 0x33, 0x33, 0x33, 0x33, 0x33, 0x33, 0x33, 0x33,
      0x33, 0x33, 0x33, 0x33, 0x33, 0x33, 0x33, 0x33, 0x33, 0x68] = .ok 1200000000000 ∧
    from_str [0x30, 0x2e, 0x31, 0x30, 0x30, 0x30, 0x30, 0x30, 0x30, 0x30, 0x30, 0x30,
      0x30, 0x30, 0x30, 0x30, 0x30, 0x30, 0x30, 0x30, 0x30, 0x30, 0x30, 0x68] =
      .ok 360000000000 := by
  constructor <;> decide

set_option maxRecDepth 1000000 in
/-- C2: after the term loop the accumulated magnitude is at most `2 ^ 63`;
the final sign application is asymmetric: with a negative sign a magnitude
of exactly `2 ^ 63` gives `MIN` and smaller magnitudes are negated, while
without one the magnitude must fit in `2 ^ 63 - 1`; hence
`-9223372036854775808ns` parses to `MIN` while `9223372036854775808ns` is
an invalid duration. -/
theorem magnitude_bound_and_sign_asymmetry :
    (∀ (fuel : ℕ) (s : List ℕ) (d0 d : ℕ),
      d0 ≤ 2 ^ 63 → terms_loop fuel s d0 = .ok d → d ≤ 2 ^ 63) ∧
    (∀ d : ℕ, d ≤ 2 ^ 63 →
      finalize true d = .ok (if d = 2 ^ 63 then -(2 ^ 63 : ℤ) else -(d : ℤ)) ∧
      (2 ^ 63 - 1 < d → finalize false d = .error .Invalid) ∧
      (d ≤ 2 ^ 63 - 1 → finalize false d = .ok (d : ℤ))) ∧
    from_str [0x2d, 0x39, 0x32, 0x32, 0x33, 0x33, 0x37, 0x32, 0x30, 0x33, 0x36, 0x38,
      0x35, 0x34, 0x37, 0x37, 0x35, 0x38, 0x30, 0x38, 0x6e, 0x73] = .ok (-(2 ^ 63)) ∧
    from_str [0x39, 0x32, 0x32, 0x33, 0x33, 0x37, 0x32, 0x30, 0x33, 0x36, 0x38,
      0x35, 0x34, 0x37, 0x37, 0x35, 0x38, 0x30, 0x38, 0x6e, 0x73] = .error .Invalid := by
  refine ⟨?_, ?_, by decide, by decide⟩
  · intro fuel
    induction fuel with
    | zero =>
      intro s d0 d h0 h
      cases s with
      | nil =>
        simp only [terms_loop, Except.ok.injEq] at h
        omega
      | cons c t => exact Except.noConfusion h
    | succ n ih =>
      intro s d0 d h0 h
      cases s with
      | nil =>
        simp only [terms_loop, Except.ok.injEq] at h
        omega
      | cons c t =>
        rw [terms_loop] at h
        cases hp : parse_term (c :: t) with
        | error e =>
          rw [hp] at h
          simp at h
        | ok vr =>
          rw [hp] at h
          obtain ⟨v, rest⟩ := vr
          simp only at h
          by_cases hd1 : 2 ^ 63 < (d0 + v) % 2 ^ 64
          · rw [if_pos hd1] at h
            simp at h
          · rw [if_neg hd1] at h
            exact ih rest _ d (by omega) h
  · intro d hd
    refine ⟨?_, ?_, ?_⟩
    · have hdi : (if d < 2 ^ 63 then (d : ℤ) else (d : ℤ) - 2 ^ 64) =
          (if d = 2 ^ 63 then -(2 ^ 63 : ℤ) else (d : ℤ)) := by
        split_ifs <;> omega
      unfold finalize
      rw [if_pos (show (true = true) from rfl)]
      simp only [hdi]
      by_cases h : d = 2 ^ 63
      · rw [if_pos h, if_pos h]
        norm_num
      · rw [if_neg h, if_neg h, if_neg (show ¬ ((d : ℤ) = -(2 ^ 63)) by omega)]
    · intro h
      unfold finalize
      rw [if_neg (show ¬ (false = true) by simp), if_pos h]
    · intro h
      unfold finalize
      rw [if_neg (show ¬ (false = true) by simp), if_neg (by omega)]

/-- Witness for C2: the loop bound at a parsed `5s` and the negative
finalization at magnitude 5. -/
theorem magnitude_bound_and_sign_asymmetry_witness :
    (5000000000 : ℕ) ≤ 2 ^ 63 ∧ finalize true 5 = .ok (-(5 : ℤ)) :=
  ⟨magnitude_bound_and_sign_asymmetry.1 3 [0x35, 0x73] 0 5000000000 (by decide) (by decide),
   by
     have h := (magnitude_bound_and_sign_asymmetry.2.1 5 (by decide)).1
     rw [if_neg (by decide)] at h
     exact h⟩

/-! ### Claims about the formatter's sign handling -/

/-- C5 (counterexample): the sign-symmetry claim fails at `d = 0`, which is
strictly greater than `MIN`: the negation of zero formats as `0s`, not as
`-0s`. -/
theorem format_neg_prepend_cex : format (neg 0) ≠ 0x2d :: format 0 := by decide

/-- C5 (amended): for every strictly positive duration `d`, formatting the
negation prepends a single `-` byte: `format (neg d) = "-" ++ format d`.
(For `d = 0` and for negative `d` the original claim is false.) -/
theorem format_neg_prepend (d : ℤ) (h1 : 0 < d) (h2 : d ≤ MAX) :
    format (neg d) = 0x2d :: format d := by
  have hM : d ≤ 2 ^ 63 - 1 := by simpa [MAX] using h2
  have hneg : neg d = -d := by
    unfold neg
    rw [if_neg (show ¬ d = MIN by simp only [MIN]; omega)]
  rw [hneg]
  unfold format
  rw [if_neg (show ¬ (-d = -(2 ^ 63)) by omega),
      if_pos (show -d < 0 by omega),
      if_neg (show ¬ (d = -(2 ^ 63)) by omega),
      if_neg (show ¬ (d < 0) by omega),
      Int.natAbs_neg]

/-- Witness for C5 at `d = 5`. -/
theorem format_neg_prepend_witness : format (neg 5) = 0x2d :: format 5 :=
  format_neg_prepend 5 (by decide) (by decide)

set_option maxRecDepth 1000000 in
/-- C3 (counterexample): on `0.3333333333333333333h` the accepted term has
integer part `v = 0`, fractional accumulator `f = 3333333333333333333` with
scale `10 ^ 19`, and unit value `3600000000000`, yet the parser returns
`1_200_000_000_000` while the exact rational floor
`v * unit + (f * unit) / scale` is `1_199_999_999_999`: the fractional
contribution is not computed in exact integer arithmetic. -/
theorem term_fraction_exact_floor_cex :
    from_str [0x30, 0x2e, 0x33, 0x33, 0x33, 0x33, 0x33, 0x33, 0x33, 0x33, 0x33, 0x33,
      0x33, 0x33, 0x33, 0x33, 0x33, 0x33, 0x33, 0x33, 0x33, 0x68] = .ok 1200000000000 ∧
    leading_fraction [0x33, 0x33, 0x33, 0x33, 0x33, 0x33, 0x33, 0x33, 0x33, 0x33,
      0x33, 0x33, 0x33, 0x33, 0x33, 0x33, 0x33, 0x33, 0x33, 0x68] 0 ⟨1, 1⟩ false =
      (3333333333333333333, ⟨10000000000000000000, 1⟩, [0x68]) ∧
    (0 * 3600000000000 + (3333333333333333333 * 3600000000000) / 10 ^ 19 : ℕ) ≠
      1200000000000 := by
  refine ⟨by decide, by decide, by decide⟩

/-- C3 (amended): for every accepted term with integer part `v`, fractional
accumulator `f > 0`, fractional scale `scale`, and unit value `unit`, the
parser's contribution to the magnitude is `v * unit` plus the fractional
part computed in binary64 floating-point arithmetic,
`((f as f64) * (unit as f64 / scale)) as u64` — which can exceed the exact
rational floor of `f * unit / scale` (see the counterexample). -/
theorem term_contribution_f64 (s s1 s2 : List ℕ) (v f unit : ℕ) (scale : F64)
    (hint : leading_int s 0 = some (v, 0x2e :: s1))
    (hfrac : leading_fraction s1 0 ⟨1, 1⟩ false = (f, scale, s2))
    (hpost : s2.length ≠ s1.length)
    (hi : unit_len s2 ≠ 0)
    (hunit : unit_map (s2.take (unit_len s2)) = some unit)
    (hv : v ≤ 2 ^ 63 / unit)
    (hoverflow : (v * unit + frac_contrib f unit scale) % 2 ^ 64 ≤ 2 ^ 63)
    (hf : 0 < f) :
    parse_term s = .ok ((v * unit + frac_contrib f unit scale) % 2 ^ 64,
      s2.drop (unit_len s2)) := by
  cases s with
  | nil =>
    simp only [leading_int, Option.some.injEq, Prod.mk.injEq] at hint
    exact absurd hint.2 (by simp)
  | cons c0 s0 =>
    have hguard : c0 = 0x2e ∨ isDigit c0 = true := by
      by_cases hc : isDigit c0 = true
      · exact Or.inr hc
      · left
        rw [leading_int] at hint
        rw [if_pos (by simpa using hc)] at hint
        simp only [Option.some.injEq, Prod.mk.injEq, List.cons.injEq] at hint
        exact hint.2.1
    simp only [parse_term]
    rw [if_neg (not_not_intro hguard), hint]
    simp only [parse_frac, eq_self_iff_true, if_true, hfrac]
    rw [if_neg (by
      rintro ⟨h1, h2⟩
      rw [decide_eq_false_iff_not] at h2
      exact h2 hpost)]
    rw [if_neg hi]
    simp only [hunit]
    rw [if_neg (by omega), if_pos hf, if_neg (by omega)]

/-! ### Decimal accumulator lemmas for the round-trip proof -/

/-- Value accumulated by the digit loops of `leading_int` and
`leading_fraction` over a digit list, starting from `x0`. -/
def accVal (x0 : ℕ) (L : List ℕ) : ℕ := L.foldl (fun a c => a * 10 + (c - 0x30)) x0

/-- All bytes of the list are ASCII digits. -/
def allDigits (L : List ℕ) : Prop := ∀ c ∈ L, isDigit c = true

theorem accVal_nil (x0 : ℕ) : accVal x0 [] = x0 := rfl

theorem accVal_cons (x0 c : ℕ) (L : List ℕ) :
    accVal x0 (c :: L) = accVal (x0 * 10 + (c - 0x30)) L := rfl

theorem accVal_append (x0 : ℕ) (L M : List ℕ) :
    accVal x0 (L ++ M) = accVal (accVal x0 L) M := by
  unfold accVal
  exact List.foldl_append _ _ _ _

theorem le_accVal (x0 : ℕ) (L : List ℕ) : x0 * 10 ^ L.length ≤ accVal x0 L := by
  induction L generalizing x0 with
  | nil => simp [accVal_nil]
  | cons c L ih =>
    rw [accVal_cons]
    have h1 := ih (x0 * 10 + (c - 0x30))
    have h2 : x0 * 10 * 10 ^ L.length ≤ (x0 * 10 + (c - 0x30)) * 10 ^ L.length :=
      Nat.mul_le_mul_right _ (by omega)
    calc x0 * 10 ^ (c :: L).length = x0 * 10 * 10 ^ L.length := by
          simp [List.length_cons, pow_succ]
          ring
      _ ≤ (x0 * 10 + (c - 0x30)) * 10 ^ L.length := h2
      _ ≤ accVal (x0 * 10 + (c - 0x30)) L := h1

theorem accVal_lt (x0 : ℕ) (L : List ℕ) (hL : allDigits L) :
    accVal x0 L < (x0 + 1) * 10 ^ L.length := by
  induction L generalizing x0 with
  | nil => simp [accVal_nil]
  | cons c L ih =>
    rw [accVal_cons]
    have hc : c - 0x30 ≤ 9 := by
      have := hL c (by simp)
      unfold isDigit at this
      simp only [Bool.and_eq_true, decide_eq_true_eq] at this
      omega
    have h1 := ih (x0 * 10 + (c - 0x30)) (fun b hb => hL b (by simp [hb]))
    have h2 : (x0 * 10 + (c - 0x30) + 1) * 10 ^ L.length ≤
        (x0 + 1) * 10 * 10 ^ L.length := Nat.mul_le_mul_right _ (by omega)
    calc accVal (x0 * 10 + (c - 0x30)) L < (x0 * 10 + (c - 0x30) + 1) * 10 ^ L.length := h1
      _ ≤ (x0 + 1) * 10 * 10 ^ L.length := h2
      _ = (x0 + 1) * 10 ^ (c :: L).length := by
          simp [List.length_cons, pow_succ]
          ring

/-- Round trip of the digit loop of `leading_int`: consuming a digit list
followed by a non-digit (or nothing) yields the accumulated value, with no
overflow when the value is under `10 ^ 18`. -/
theorem leading_int_spec (L : List ℕ) : ∀ (rest : List ℕ) (x0 : ℕ),
    allDigits L →
    (rest = [] ∨ ∃ c rs, rest = c :: rs ∧ isDigit c = false) →
    accVal x0 L < 10 ^ 18 →
    leading_int (L ++ rest) x0 = some (accVal x0 L, rest) := by
  induction L with
  | nil =>
    intro rest x0 _ hrest _
    rw [accVal_nil]
    rcases hrest with rfl | ⟨c, rs, rfl, hc⟩
    · rfl
    · simp only [List.nil_append, leading_int]
      rw [if_pos hc]
  | cons c L ih =>
    intro rest x0 hL hrest hbound
    have hc : isDigit c = true := hL c (by simp)
    have hcv : 0x30 ≤ c ∧ c ≤ 0x39 := by
      unfold isDigit at hc
      simp only [Bool.and_eq_true, decide_eq_true_eq] at hc
      exact hc
    rw [accVal_cons] at hbound ⊢
    have hlow := le_accVal (x0 * 10 + (c - 0x30)) L
    have hx0 : x0 * 10 + (c - 0x30) < 10 ^ 18 := by
      have hone : (x0 * 10 + (c - 0x30)) * 1 ≤ (x0 * 10 + (c - 0x30)) * 10 ^ L.length :=
        Nat.mul_le_mul_left _ (Nat.one_le_pow _ _ (by omega))
      omega
    simp only [List.cons_append, leading_int]
    rw [if_neg (by simp [hc]), if_neg (by omega), if_neg (by omega)]
    exact ih rest (x0 * 10 + (c - 0x30)) (fun b hb => hL b (by simp [hb])) hrest hbound

/-- Scale accumulator of `leading_fraction`: the double `sc` multiplied by
`10.0` once per digit kept. -/
def scale_iter (sc : F64) : ℕ → F64
  | 0 => sc
  | k + 1 => scale_iter (fmul sc ⟨10, 1⟩) k

/-- Round trip of the digit loop of `leading_fraction` in the no-overflow
regime: the accumulator collects the digits' value, and the scale is
multiplied by `10.0` once per digit. -/
theorem leading_fraction_spec (L : List ℕ) : ∀ (rest : List ℕ) (x0 : ℕ) (sc : F64),
    allDigits L →
    (rest = [] ∨ ∃ c rs, rest = c :: rs ∧ isDigit c = false) →
    accVal x0 L < 10 ^ 18 →
    leading_fraction (L ++ rest) x0 sc false =
      (accVal x0 L, scale_iter sc L.length, rest) := by
  induction L with
  | nil =>
    intro rest x0 sc _ hrest _
    rw [accVal_nil]
    rcases hrest with rfl | ⟨c, rs, rfl, hc⟩
    · rfl
    · simp only [List.nil_append, leading_fraction]
      rw [if_pos hc]
      rfl
  | cons c L ih =>
    intro rest x0 sc hL hrest hbound
    have hc : isDigit c = true := hL c (by simp)
    have hcv : 0x30 ≤ c ∧ c ≤ 0x39 := by
      unfold isDigit at hc
      simp only [Bool.and_eq_true, decide_eq_true_eq] at hc
      exact hc
    rw [accVal_cons] at hbound ⊢
    have hlow := le_accVal (x0 * 10 + (c - 0x30)) L
    have hx0 : x0 * 10 + (c - 0x30) < 10 ^ 18 := by
      have hone : (x0 * 10 + (c - 0x30)) * 1 ≤ (x0 * 10 + (c - 0x30)) * 10 ^ L.length :=
        Nat.mul_le_mul_left _ (Nat.one_le_pow _ _ (by omega))
      omega
    simp only [List.cons_append, leading_fraction]
    rw [if_neg (by simp [hc]), if_neg (by simp), if_neg (by omega), if_neg (by omega)]
    rw [List.length_cons]
    exact ih rest (x0 * 10 + (c - 0x30)) (fmul sc ⟨10, 1⟩)
      (fun b hb => hL b (by simp [hb])) hrest hbound

/-- The unit scan consumes exactly the non-digit non-dot block `U` when what
follows is empty or resumes with a digit or dot. -/
theorem unit_len_append (U : List ℕ) : ∀ rest : List ℕ,
    (∀ c ∈ U, ¬(c = 0x2e ∨ isDigit c = true)) →
    (rest = [] ∨ ∃ c rs, rest = c :: rs ∧ (c = 0x2e ∨ isDigit c = true)) →
    unit_len (U ++ rest) = U.length := by
  induction U with
  | nil =>
    intro rest _ hrest
    rcases hrest with rfl | ⟨c, rs, rfl, hc⟩
    · rfl
    · simp only [List.nil_append, unit_len, List.length_nil]
      rw [if_pos hc]
  | cons c U ih =>
    intro rest hU hrest
    simp only [List.cons_append, unit_len, List.length_cons]
    rw [if_neg (hU c (by simp))]
    exact congrArg (fun n => n + 1) (ih rest (fun b hb => hU b (by simp [hb])) hrest)

/-! ### Formatter digit lemmas -/

theorem fmt_int_go_spec : ∀ (fuel v : ℕ) (acc : List ℕ), 0 < v → v < 10 ^ fuel →
    ∃ L, fmt_int_go fuel v acc = L ++ acc ∧ allDigits L ∧ 0 < L.length ∧
      ∀ x0, accVal x0 L = x0 * 10 ^ L.length + v := by
  intro fuel
  induction fuel with
  | zero =>
    intro v acc hv hb
    simp only [pow_zero] at hb
    omega
  | succ fuel ih =>
    intro v acc hv hb
    rw [fmt_int_go, if_neg (by omega)]
    by_cases hq : v / 10 = 0
    · have hvlt : v < 10 := by omega
      have hstop : fmt_int_go fuel (v / 10) ((v % 10 + 0x30) :: acc) = (v % 10 + 0x30) :: acc := by
        rw [hq]
        cases fuel with
        | zero => rfl
        | succ fuel => rw [fmt_int_go, if_pos rfl]
      refine ⟨[v % 10 + 0x30], by simpa using hstop, ?_, by simp, ?_⟩
      · intro c hc
        simp only [List.mem_singleton] at hc
        subst hc
        unfold isDigit
        simp only [Bool.and_eq_true, decide_eq_true_eq]
        omega
      · intro x0
        rw [show accVal x0 [v % 10 + 0x30] = x0 * 10 + (v % 10 + 0x30 - 0x30) from rfl]
        simp only [List.length_singleton, pow_one]
        omega
    · obtain ⟨L, hEq, hDig, hLen, hVal⟩ := ih (v / 10) ((v % 10 + 0x30) :: acc)
        (by omega) (by
          have h10 : 10 ^ (fuel + 1) = 10 ^ fuel * 10 := pow_succ 10 fuel
          omega)
      refine ⟨L ++ [v % 10 + 0x30], ?_, ?_, by simp, ?_⟩
      · rw [hEq, List.append_assoc, List.singleton_append]
      · intro c hc
        rcases List.mem_append.1 hc with h | h
        · exact hDig c h
        · simp only [List.mem_singleton] at h
          subst h
          unfold isDigit
          simp only [Bool.and_eq_true, decide_eq_true_eq]
          omega
      · intro x0
        rw [accVal_append, hVal x0]
        rw [show accVal (x0 * 10 ^ L.length + v / 10) [v % 10 + 0x30] =
          (x0 * 10 ^ L.length + v / 10) * 10 + (v % 10 + 0x30 - 0x30) from rfl]
        simp only [List.length_append, List.length_singleton]
        rw [show (10 : ℕ) ^ (L.length + 1) = 10 ^ L.length * 10 from pow_succ 10 L.length]
        have hkey : (x0 * 10 ^ L.length + v / 10) * 10 =
            x0 * (10 ^ L.length * 10) + 10 * (v / 10) := by ring
        have hvm : 10 * (v / 10) + v % 10 = v := Nat.div_add_mod v 10
        omega

/-- Specification of `fmt_int`: a nonempty digit string whose accumulated
value is exactly `v`. -/
theorem fmt_int_spec (v : ℕ) (hv : v < 10 ^ 18) :
    allDigits (fmt_int v) ∧ 0 < (fmt_int v).length ∧
      ∀ x0, accVal x0 (fmt_int v) = x0 * 10 ^ (fmt_int v).length + v := by
  unfold fmt_int
  by_cases h : v = 0
  · rw [if_pos h]
    refine ⟨?_, by simp, ?_⟩
    · intro c hc
      simp only [List.mem_singleton] at hc
      subst hc
      rfl
    · intro x0
      rw [show accVal x0 [0x30] = x0 * 10 + (0x30 - 0x30) from rfl]
      simp only [List.length_singleton, pow_one]
      omega
  · rw [if_neg h]
    obtain ⟨L, hEq, hDig, hLen, hVal⟩ := fmt_int_go_spec 32 v [] (by omega)
      (by
        have : (10 : ℕ) ^ 18 ≤ 10 ^ 32 := Nat.pow_le_pow_right (by omega) (by omega)
        omega)
    rw [hEq, List.append_nil]
    exact ⟨hDig, hLen, hVal⟩

/-- The head byte of `fmt_int` is always a digit. -/
theorem fmt_int_head (v : ℕ) (hv : v < 10 ^ 18) :
    ∃ c t, fmt_int v = c :: t ∧ isDigit c = true := by
  obtain ⟨hDig, hLen, -⟩ := fmt_int_spec v hv
  cases hEq : fmt_int v with
  | nil => rw [hEq] at hLen; simp at hLen
  | cons c t =>
    refine ⟨c, t, rfl, ?_⟩
    rw [hEq] at hDig
    exact hDig c (by simp)

/-- Fixed-width decimal digits (most significant first) of `n mod 10 ^ k`,
including leading zeros: the shape `fmt_frac` prints once a nonzero digit
has been seen. -/
def pad : ℕ → ℕ → List ℕ
  | 0, _ => []
  | k + 1, n => pad k (n / 10) ++ [n % 10 + 0x30]

theorem pad_length (k n : ℕ) : (pad k n).length = k := by
  induction k generalizing n with
  | zero => rfl
  | succ k ih => simp [pad, ih]

theorem pad_digits (k n : ℕ) : allDigits (pad k n) := by
  induction k generalizing n with
  | zero => intro c hc; simp [pad] at hc
  | succ k ih =>
    intro c hc
    simp only [pad] at hc
    rcases List.mem_append.1 hc with h | h
    · exact ih (n / 10) c h
    · simp only [List.mem_singleton] at h
      subst h
      unfold isDigit
      simp only [Bool.and_eq_true, decide_eq_true_eq]
      omega

/-- Splitting a value by its lowest decimal digit under a power-of-ten
modulus. -/
theorem mod_pow_succ_digit (n k : ℕ) :
    n % 10 ^ (k + 1) = 10 * (n / 10 % 10 ^ k) + n % 10 := by
  have hP : 0 < 10 ^ k := Nat.pos_pow_of_pos k (by omega)
  have hps : (10 : ℕ) ^ (k + 1) = 10 * 10 ^ k := by ring
  rw [hps]
  conv_lhs => rw [← Nat.div_add_mod n 10]
  have h3 : n % 10 % (10 * 10 ^ k) = n % 10 :=
    Nat.mod_eq_of_lt (by
      have := Nat.mod_lt n (show 0 < 10 by omega)
      have hone : (1 : ℕ) ≤ 10 ^ k := hP
      omega)
  have h4 : 10 * (n / 10 % 10 ^ k) + n % 10 < 10 * 10 ^ k := by
    have := Nat.mod_lt (n / 10) hP
    have := Nat.mod_lt n (show 0 < 10 by omega)
    omega
  rw [Nat.add_mod, Nat.mul_mod_mul_left, h3, Nat.mod_eq_of_lt h4]

theorem pad_val (k : ℕ) : ∀ (n x0 : ℕ), accVal x0 (pad k n) = x0 * 10 ^ k + n % 10 ^ k := by
  induction k with
  | zero =>
    intro n x0
    simp [pad, accVal_nil, Nat.mod_one]
  | succ k ih =>
    intro n x0
    simp only [pad]
    rw [accVal_append, ih (n / 10) x0]
    rw [show accVal (x0 * 10 ^ k + n / 10 % 10 ^ k) [n % 10 + 0x30] =
      (x0 * 10 ^ k + n / 10 % 10 ^ k) * 10 + (n % 10 + 0x30 - 0x30) from rfl]
    have hsplit := mod_pow_succ_digit n k
    rw [show (10 : ℕ) ^ (k + 1) = 10 ^ k * 10 from pow_succ 10 k] at hsplit ⊢
    have hexp : (x0 * 10 ^ k + n / 10 % 10 ^ k) * 10 =
        x0 * (10 ^ k * 10) + 10 * (n / 10 % 10 ^ k) := by ring
    omega

/-- The printing phase of `fmt_frac_go`: once `print` is set every remaining
digit is emitted, yielding the fixed-width digits of `v mod 10 ^ p`. -/
theorem fmt_frac_go_print (p : ℕ) : ∀ (v : ℕ) (acc : List ℕ),
    fmt_frac_go p v true acc = (0x2e :: (pad p v ++ acc), v / 10 ^ p) := by
  induction p with
  | zero => intro v acc; simp [fmt_frac_go, pad]
  | succ p ih =>
    intro v acc
    rw [fmt_frac_go]
    simp only [Bool.true_or, if_pos]
    rw [ih (v / 10) ((v % 10 + 0x30) :: acc)]
    have h1 : pad (p + 1) v ++ acc = pad p (v / 10) ++ (v % 10 + 0x30) :: acc := by
      simp [pad, List.append_assoc]
    have h2 : v / 10 / 10 ^ p = v / 10 ^ (p + 1) := by
      rw [Nat.div_div_eq_div_mul]
      congr 1
      ring
    rw [h1, h2]

/-- Specification of `fmt_frac`: the second component is `v / 10 ^ prec`,
and the fraction bytes are empty exactly when `10 ^ prec` divides `v`;
otherwise they are a dot followed by between 1 and `prec` digits whose value
times the omitted power of ten recovers `v mod 10 ^ prec`. -/
theorem fmt_frac_spec (prec : ℕ) : ∀ v : ℕ,
    (fmt_frac v prec).2 = v / 10 ^ prec ∧
    ((v % 10 ^ prec = 0 ∧ (fmt_frac v prec).1 = []) ∨
     (∃ L, (fmt_frac v prec).1 = 0x2e :: L ∧ allDigits L ∧ 0 < L.length ∧
        L.length ≤ prec ∧ 0 < accVal 0 L ∧
        accVal 0 L * 10 ^ (prec - L.length) = v % 10 ^ prec)) := by
  unfold fmt_frac
  induction prec with
  | zero =>
    intro v
    exact ⟨by simp [fmt_frac_go], Or.inl ⟨Nat.mod_one v, rfl⟩⟩
  | succ prec ih =>
    intro v
    rw [fmt_frac_go]
    by_cases hd : v % 10 = 0
    · have hp1 : (false || decide (v % 10 ≠ 0)) = false := by simp [hd]
      rw [hp1, if_neg (by simp)]
      obtain ⟨hv2, hcase⟩ := ih (v / 10)
      have hsplit := mod_pow_succ_digit v prec
      have hdiv : v / 10 / 10 ^ prec = v / 10 ^ (prec + 1) := by
        rw [Nat.div_div_eq_div_mul]
        congr 1
        ring
      constructor
      · rw [hv2, hdiv]
      · rcases hcase with ⟨hmod, hfr⟩ | ⟨L, hfr, hDig, hLen, hLenLe, hPos, hVal⟩
        · exact Or.inl ⟨by omega, hfr⟩
        · refine Or.inr ⟨L, hfr, hDig, hLen, by omega, hPos, ?_⟩
          have hexp : (10 : ℕ) ^ (prec + 1 - L.length) = 10 ^ (prec - L.length) * 10 := by
            rw [show prec + 1 - L.length = (prec - L.length) + 1 by omega, pow_succ]
          rw [hexp]
          have hmul : accVal 0 L * (10 ^ (prec - L.length) * 10) =
              accVal 0 L * 10 ^ (prec - L.length) * 10 := by ring
          omega
    · have hp2 : (false || decide (v % 10 ≠ 0)) = true := by simp [hd]
      rw [hp2, if_pos rfl]
      rw [fmt_frac_go_print prec (v / 10) [v % 10 + 0x30]]
      have hsplit := mod_pow_succ_digit v prec
      have hdiv : v / 10 / 10 ^ prec = v / 10 ^ (prec + 1) := by
        rw [Nat.div_div_eq_div_mul]
        congr 1
        ring
      refine ⟨hdiv, Or.inr ⟨pad prec (v / 10) ++ [v % 10 + 0x30], rfl, ?_, ?_, ?_, ?_, ?_⟩⟩
      · intro c hc
        rcases List.mem_append.1 hc with h | h
        · exact pad_digits prec (v / 10) c h
        · simp only [List.mem_singleton] at h
          subst h
          unfold isDigit
          simp only [Bool.and_eq_true, decide_eq_true_eq]
          omega
      · simp [pad_length]
      · simp [pad_length]
      · rw [accVal_append, pad_val prec (v / 10) 0]
        rw [show accVal (0 * 10 ^ prec + v / 10 % 10 ^ prec) [v % 10 + 0x30] =
          (0 * 10 ^ prec + v / 10 % 10 ^ prec) * 10 + (v % 10 + 0x30 - 0x30) from rfl]
        omega
      · rw [accVal_append, pad_val prec (v / 10) 0]
        rw [show accVal (0 * 10 ^ prec + v / 10 % 10 ^ prec) [v % 10 + 0x30] =
          (0 * 10 ^ prec + v / 10 % 10 ^ prec) * 10 + (v % 10 + 0x30 - 0x30) from rfl]
        simp only [List.length_append, pad_length, List.length_singleton]
        rw [show prec + 1 - (prec + 1) = 0 by omega, pow_zero]
        omega

/-! ### Exactness of the binary64 model on small integers

Every value the round-trip proof pushes through the parser's `f64`
arithmetic is a natural number below `2 ^ 53` (or a quotient of powers of
ten that is one); binary64 represents these exactly, and the lemmas below
prove the model does too. -/

theorem ilog2_spec : ∀ (fuel n : ℕ), 0 < n → n < 2 ^ fuel →
    2 ^ ilog2 fuel n ≤ n ∧ n < 2 ^ (ilog2 fuel n + 1) := by
  intro fuel
  induction fuel with
  | zero =>
    intro n h1 h2
    simp only [pow_zero] at h2
    omega
  | succ fuel ih =>
    intro n h1 h2
    rw [ilog2]
    by_cases hn : 2 ≤ n
    · rw [if_pos hn]
      obtain ⟨hl, hr⟩ := ih (n / 2) (by omega) (by
        have hps : 2 ^ (fuel + 1) = 2 ^ fuel * 2 := pow_succ 2 fuel
        omega)
      constructor
      · rw [pow_succ]
        have := Nat.mul_le_mul_right 2 hl
        omega
      · rw [pow_succ]
        have := Nat.mul_le_mul_right 2 hr
        omega
    · rw [if_neg hn]
      have hone : n = 1 := by omega
      subst hone
      simp

/-- On an exact multiple `n * b` over `b`, `flog2` returns the floor
base-2 logarithm of `n` as a nonnegative integer. -/
theorem flog2_exact (n b : ℕ) (hb : 0 < b) (hn : 0 < n) (hnb : n * b < 2 ^ 320) :
    ∃ E : ℕ, flog2 (n * b) b = (E : ℤ) ∧ 2 ^ E ≤ n ∧ n < 2 ^ (E + 1) := by
  have hbnb : b ≤ n * b := Nat.le_mul_of_pos_left b hn
  have hb320 : b < 2 ^ 320 := by omega
  obtain ⟨ha1, ha2⟩ := ilog2_spec 320 (n * b) (by positivity) hnb
  obtain ⟨hb1, hb2⟩ := ilog2_spec 320 b hb hb320
  set la := ilog2 320 (n * b) with hla
  set lb := ilog2 320 b with hlb
  have hlab : lb ≤ la := by
    have h1 : 2 ^ lb < 2 ^ (la + 1) := by omega
    have h2 : lb < la + 1 := (Nat.pow_lt_pow_iff_right (by omega)).1 h1
    omega
  unfold flog2
  rw [← hla, ← hlb]
  have hd0 : (0 : ℤ) ≤ (la : ℤ) - (lb : ℤ) := by omega
  rw [if_pos hd0]
  have hdt : ((la : ℤ) - (lb : ℤ)).toNat = la - lb := by omega
  rw [hdt]
  by_cases hcond : 2 ^ (la - lb) * b ≤ n * b
  · rw [if_pos hcond]
    refine ⟨la - lb, by omega, ?_, ?_⟩
    · exact Nat.le_of_mul_le_mul_right hcond hb
    · have hsum : la + 1 = (la - lb + 1) + lb := by omega
      have h1 : n * 2 ^ lb ≤ n * b := Nat.mul_le_mul_left n hb1
      have h2 : n * b < 2 ^ (la - lb + 1) * 2 ^ lb := by
        rw [← pow_add, ← hsum]
        omega
      have h3 : n * 2 ^ lb < 2 ^ (la - lb + 1) * 2 ^ lb := by omega
      exact Nat.lt_of_mul_lt_mul_right h3
  · rw [if_neg hcond]
    have hD1 : 1 ≤ la - lb := by
      by_contra hD0
      have : la - lb = 0 := by omega
      rw [this] at hcond
      simp only [pow_zero, one_mul] at hcond
      omega
    refine ⟨la - lb - 1, by omega, ?_, ?_⟩
    · have hsum : la = (la - lb - 1) + (lb + 1) := by omega
      have h1 : 2 ^ (la - lb - 1) * 2 ^ (lb + 1) ≤ n * b := by
        rw [← pow_add, ← hsum]
        omega
      have h2 : n * b < n * 2 ^ (lb + 1) := by
        have := Nat.mul_le_mul_left n (show b + 1 ≤ 2 ^ (lb + 1) by omega)
        have hx : n * (b + 1) = n * b + n := by ring
        omega
      have h3 : 2 ^ (la - lb - 1) * 2 ^ (lb + 1) < n * 2 ^ (lb + 1) := by omega
      have h4 : 2 ^ (la - lb - 1) < n := Nat.lt_of_mul_lt_mul_right h3
      omega
    · have h5 : n * b < 2 ^ (la - lb) * b := by omega
      have h6 : n < 2 ^ (la - lb) := Nat.lt_of_mul_lt_mul_right h5
      have : la - lb - 1 + 1 = la - lb := by omega
      rw [this]
      exact h6

/-- The model rounds an exact small multiple to itself: for `0 < n < 2 ^ 53`,
`rnd (n * b) b` is the pair `(n * 2 ^ t, 2 ^ t)` for some `t ≤ 52`. -/
theorem rnd_exact (n b : ℕ) (hb : 0 < b) (hn : 0 < n) (hn53 : n < 2 ^ 53)
    (hsize : n * b < 2 ^ 320) :
    ∃ t : ℕ, t ≤ 52 ∧ rnd (n * b) b = ⟨n * 2 ^ t, 2 ^ t⟩ := by
  obtain ⟨E, hE, hE1, hE2⟩ := flog2_exact n b hb hn hsize
  have hE52 : E ≤ 52 := by
    by_contra h
    have : 2 ^ 53 ≤ 2 ^ E := Nat.pow_le_pow_right (by omega) (by omega)
    omega
  have htn : ((52 : ℤ) - (E : ℤ)).toNat = 52 - E := by omega
  have hcond : (0 : ℤ) ≤ 52 - (E : ℤ) := by omega
  have hA : n * b * 2 ^ (52 - E) = n * 2 ^ (52 - E) * b := by ring
  refine ⟨52 - E, by omega, ?_⟩
  unfold rnd
  rw [if_neg (by
    push_neg
    constructor
    · positivity
    · omega)]
  simp only [hE, htn, if_pos hcond, hA, Nat.mul_div_cancel _ hb, Nat.mul_mod_left]
  rw [if_pos (by omega : 2 * 0 < b)]
  by_cases hEe : E = 52
  · subst hEe
    norm_num
  · rw [if_neg (by omega : ¬ (0 : ℤ) ≤ (E : ℤ) - 52)]

/-- The double `x` denotes the natural number `n` exactly, with the
denominator bounded as `rnd` produces it. -/
def F64.exactNat (x : F64) (n : ℕ) : Prop :=
  x.num = n * x.den ∧ 0 < x.den ∧ x.den ≤ 2 ^ 52

theorem rnd_exactNat (a b n : ℕ) (hb : 0 < b) (hn : 0 < n) (hn53 : n < 2 ^ 53)
    (hab : a = n * b) (hsize : a < 2 ^ 320) : (rnd a b).exactNat n := by
  subst hab
  obtain ⟨t, ht, hEq⟩ := rnd_exact n b hb hn hn53 hsize
  rw [hEq]
  refine ⟨rfl, by positivity, Nat.pow_le_pow_right (by omega) ht⟩

theorem f64ofNat_exactNat (n : ℕ) (hn : 0 < n) (hn53 : n < 2 ^ 53) :
    (f64ofNat n).exactNat n := by
  unfold f64ofNat
  exact rnd_exactNat n 1 n (by omega) hn hn53 (by ring) (by
    have : (2 : ℕ) ^ 53 ≤ 2 ^ 320 := Nat.pow_le_pow_right (by omega) (by omega)
    omega)

theorem fmul_exactNat (x y : F64) (nx ny : ℕ) (hx : x.exactNat nx) (hy : y.exactNat ny)
    (h0 : 0 < nx * ny) (h53 : nx * ny < 2 ^ 53) : (fmul x y).exactNat (nx * ny) := by
  obtain ⟨hx1, hx2, hx3⟩ := hx
  obtain ⟨hy1, hy2, hy3⟩ := hy
  unfold fmul
  refine rnd_exactNat _ _ _ (by positivity) h0 h53 (by rw [hx1, hy1]; ring) ?_
  rw [hx1, hy1]
  have hbound : nx * x.den * (ny * y.den) ≤ (nx * ny) * (2 ^ 52 * 2 ^ 52) := by
    have h1 : nx * x.den * (ny * y.den) = (nx * ny) * (x.den * y.den) := by ring
    rw [h1]
    exact Nat.mul_le_mul_left _ (Nat.mul_le_mul hx3 hy3)
  have h2 : (nx * ny) * (2 ^ 52 * 2 ^ 52) < 2 ^ 53 * (2 ^ 52 * 2 ^ 52) :=
    (Nat.mul_lt_mul_right (by positivity)).2 h53
  have h3 : (2 : ℕ) ^ 53 * (2 ^ 52 * 2 ^ 52) ≤ 2 ^ 320 := by
    rw [show (2 : ℕ) ^ 53 * (2 ^ 52 * 2 ^ 52) = 2 ^ 157 by ring]
    exact Nat.pow_le_pow_right (by omega) (by omega)
  omega

theorem fdiv_exactNat (x y : F64) (nx ny q : ℕ) (hx : x.exactNat nx) (hy : y.exactNat ny)
    (hny : 0 < ny) (hny53 : ny < 2 ^ 53) (hq : nx = q * ny) (hq0 : 0 < q)
    (hq53 : q < 2 ^ 53) : (fdiv x y).exactNat q := by
  obtain ⟨hx1, hx2, hx3⟩ := hx
  obtain ⟨hy1, hy2, hy3⟩ := hy
  unfold fdiv
  refine rnd_exactNat _ _ _ ?_ hq0 hq53 ?_ ?_
  · rw [hy1]
    positivity
  · rw [hx1, hy1, hq]
    ring
  · rw [hx1, hq]
    have hbound : q * ny * x.den * y.den ≤ q * (2 ^ 53 * (2 ^ 52 * 2 ^ 52)) := by
      have h1 : q * ny * x.den * y.den = q * (ny * (x.den * y.den)) := by ring
      rw [h1]
      refine Nat.mul_le_mul_left _ ?_
      calc ny * (x.den * y.den) ≤ 2 ^ 53 * (x.den * y.den) :=
            Nat.mul_le_mul_right _ (by omega)
        _ ≤ 2 ^ 53 * (2 ^ 52 * 2 ^ 52) :=
            Nat.mul_le_mul_left _ (Nat.mul_le_mul hx3 hy3)
    have h2 : q * (2 ^ 53 * (2 ^ 52 * 2 ^ 52)) < 2 ^ 53 * (2 ^ 53 * (2 ^ 52 * 2 ^ 52)) :=
      (Nat.mul_lt_mul_right (by positivity)).2 hq53
    have h3 : (2 : ℕ) ^ 53 * (2 ^ 53 * (2 ^ 52 * 2 ^ 52)) ≤ 2 ^ 320 := by
      rw [show (2 : ℕ) ^ 53 * (2 ^ 53 * (2 ^ 52 * 2 ^ 52)) = 2 ^ 210 by ring]
      exact Nat.pow_le_pow_right (by omega) (by omega)
    omega

theorem f64toU64_exactNat (x : F64) (n : ℕ) (h : x.exactNat n) (hn : n < 2 ^ 64) :
    f64toU64 x = n := by
  obtain ⟨h1, h2, h3⟩ := h
  unfold f64toU64
  rw [h1, Nat.mul_div_cancel _ h2]
  omega

theorem scale_iter_exactNat (k : ℕ) : ∀ (sc : F64) (n : ℕ), sc.exactNat n → 0 < n →
    n * 10 ^ k < 2 ^ 53 → (scale_iter sc k).exactNat (n * 10 ^ k) := by
  induction k with
  | zero =>
    intro sc n h hn hb
    simpa using h
  | succ k ih =>
    intro sc n h hn hb
    rw [scale_iter]
    have hps : n * 10 ^ (k + 1) = n * 10 * 10 ^ k := by ring
    have hstep : n * 10 ≤ n * 10 ^ (k + 1) := by
      have h1 : (10 : ℕ) ≤ 10 ^ (k + 1) := by
        calc (10 : ℕ) = 10 ^ 1 := by ring
          _ ≤ 10 ^ (k + 1) := Nat.pow_le_pow_right (by omega) (by omega)
      exact Nat.mul_le_mul_left n h1
    have h10 : (fmul sc ⟨10, 1⟩).exactNat (n * 10) :=
      fmul_exactNat sc ⟨10, 1⟩ n 10 h ⟨by norm_num, by norm_num, by norm_num⟩
        (by positivity) (by omega)
    have := ih (fmul sc ⟨10, 1⟩) (n * 10) h10 (by positivity) (by
      have : n * 10 * 10 ^ k = n * 10 ^ (k + 1) := by ring
      omega)
    rw [hps]
    exact this

/-- The fractional contribution is exact whenever the unit is the power of
ten matching the printing precision and the scale is the power of ten of
the consumed digit count: `frac_contrib f (10 ^ prec) (10 ^ k as f64)`
is exactly `f * 10 ^ (prec - k)`. -/
theorem frac_contrib_exact (f k prec : ℕ) (scale : F64)
    (hsc : scale.exactNat (10 ^ k)) (hk : k ≤ prec) (hprec : prec ≤ 9)
    (hf0 : 0 < f) (hf : f < 10 ^ k) :
    frac_contrib f (10 ^ prec) scale = f * 10 ^ (prec - k) := by
  have h109 : (10 : ℕ) ^ prec ≤ 10 ^ 9 := Nat.pow_le_pow_right (by omega) hprec
  have h53 : (10 : ℕ) ^ 9 < 2 ^ 53 := by norm_num
  have hkp : (10 : ℕ) ^ k ≤ 10 ^ prec := Nat.pow_le_pow_right (by omega) hk
  have hsplit : (10 : ℕ) ^ prec = 10 ^ (prec - k) * 10 ^ k := by
    rw [← pow_add]
    congr 1
    omega
  unfold frac_contrib
  have h1 : (f64ofNat f).exactNat f := f64ofNat_exactNat f hf0 (by omega)
  have h2 : (f64ofNat (10 ^ prec)).exactNat (10 ^ prec) :=
    f64ofNat_exactNat _ (by positivity) (by omega)
  have h3 : (fdiv (f64ofNat (10 ^ prec)) scale).exactNat (10 ^ (prec - k)) :=
    fdiv_exactNat _ _ _ _ _ h2 hsc (by positivity) (by omega) hsplit
      (by positivity) (by
        have : (10 : ℕ) ^ (prec - k) ≤ 10 ^ prec := Nat.pow_le_pow_right (by omega) (by omega)
        omega)
  have hmul_lt : f * 10 ^ (prec - k) < 2 ^ 53 := by
    have hlt : f * 10 ^ (prec - k) < 10 ^ k * 10 ^ (prec - k) :=
      (Nat.mul_lt_mul_right (Nat.pos_pow_of_pos _ (by omega))).2 hf
    have heq : (10 : ℕ) ^ k * 10 ^ (prec - k) = 10 ^ prec := by
      rw [← pow_add]
      congr 1
      omega
    omega
  have h4 : (fmul (f64ofNat f) (fdiv (f64ofNat (10 ^ prec)) scale)).exactNat
      (f * 10 ^ (prec - k)) :=
    fmul_exactNat _ _ _ _ h1 h3 (by positivity) hmul_lt
  exact f64toU64_exactNat _ _ h4 (by
    have : (2 : ℕ) ^ 53 ≤ 2 ^ 64 := Nat.pow_le_pow_right (by omega) (by omega)
    omega)

/-! ### Parsing the exact shapes the formatter emits -/

theorem isDigit_of_not_unit (c : ℕ) (h : ¬(c = 0x2e ∨ isDigit c = true)) :
    isDigit c = false := by
  push_neg at h
  exact Bool.not_eq_true _ ▸ h.2

/-- A term with no fractional part: digits followed by a unit suffix. -/
theorem parse_term_no_frac (L U rest : List ℕ) (unitVal : ℕ)
    (hL : allDigits L) (hL0 : L ≠ [])
    (hn : accVal 0 L < 10 ^ 18)
    (hU : ∀ c ∈ U, ¬(c = 0x2e ∨ isDigit c = true))
    (hU0 : U ≠ [])
    (hrest : rest = [] ∨ ∃ c rs, rest = c :: rs ∧ (c = 0x2e ∨ isDigit c = true))
    (hmap : unit_map U = some unitVal)
    (hv : accVal 0 L ≤ 2 ^ 63 / unitVal) :
    parse_term (L ++ U ++ rest) = .ok (accVal 0 L * unitVal, rest) := by
  cases L with
  | nil => exact absurd rfl hL0
  | cons c L2 =>
  cases U with
  | nil => exact absurd rfl hU0
  | cons u0 U2 =>
  have hc : isDigit c = true := hL c (by simp)
  have hu0 : isDigit u0 = false := isDigit_of_not_unit u0 (hU u0 (by simp))
  have hu46 : ¬ u0 = 0x2e := fun he => (hU u0 (by simp)) (Or.inl he)
  have hint : leading_int (c :: (L2 ++ (u0 :: (U2 ++ rest)))) 0 =
      some (accVal 0 (c :: L2), u0 :: (U2 ++ rest)) := by
    have h := leading_int_spec (c :: L2) (u0 :: (U2 ++ rest)) 0 hL
      (Or.inr ⟨u0, U2 ++ rest, rfl, hu0⟩) hn
    simpa [List.append_assoc] using h
  have hul : unit_len (u0 :: (U2 ++ rest)) = (u0 :: U2).length := by
    have h := unit_len_append (u0 :: U2) rest hU hrest
    simpa [List.append_assoc] using h
  have htake : List.take (u0 :: U2).length (u0 :: (U2 ++ rest)) = u0 :: U2 := by
    have h := List.take_left (u0 :: U2) rest
    simpa [List.append_assoc] using h
  have hdrop : List.drop (u0 :: U2).length (u0 :: (U2 ++ rest)) = rest := by
    have h := List.drop_left (u0 :: U2) rest
    simpa [List.append_assoc] using h
  simp only [List.cons_append, List.append_assoc]
  simp only [parse_term]
  rw [if_neg (not_not_intro (Or.inr hc)), hint]
  simp only [parse_frac]
  rw [if_neg hu46]
  dsimp only
  rw [if_neg (by
    rintro ⟨h1, -⟩
    simp only [List.length_cons, List.length_append] at h1
    omega)]
  rw [hul, if_neg (by simp), htake, hdrop, hmap]
  dsimp only
  rw [if_neg (by omega), if_neg (by omega)]

/-- A term with a fractional part: digits, a dot, fractional digits, then a
power-of-ten unit suffix; the `f64` fractional contribution is exact. -/
theorem parse_term_frac (L Lf U rest : List ℕ) (prec : ℕ)
    (hL : allDigits L) (hL0 : L ≠ [])
    (hn : accVal 0 L < 10 ^ 18)
    (hLf : allDigits Lf) (hLf0 : Lf ≠ [])
    (hfb : accVal 0 Lf < 10 ^ 18)
    (hf0 : 0 < accVal 0 Lf)
    (hk : Lf.length ≤ prec) (hprec : prec ≤ 9)
    (hU : ∀ c ∈ U, ¬(c = 0x2e ∨ isDigit c = true))
    (hU0 : U ≠ [])
    (hrest : rest = [] ∨ ∃ c rs, rest = c :: rs ∧ (c = 0x2e ∨ isDigit c = true))
    (hmap : unit_map U = some (10 ^ prec))
    (hv : accVal 0 L ≤ 2 ^ 63 / 10 ^ prec)
    (hov : accVal 0 L * 10 ^ prec + accVal 0 Lf * 10 ^ (prec - Lf.length) ≤ 2 ^ 63) :
    parse_term (L ++ (0x2e :: Lf) ++ U ++ rest) =
      .ok (accVal 0 L * 10 ^ prec + accVal 0 Lf * 10 ^ (prec - Lf.length), rest) := by
  cases L with
  | nil => exact absurd rfl hL0
  | cons c L2 =>
  cases U with
  | nil => exact absurd rfl hU0
  | cons u0 U2 =>
  have hc : isDigit c = true := hL c (by simp)
  have hu0 : isDigit u0 = false := isDigit_of_not_unit u0 (hU u0 (by simp))
  have hint : leading_int (c :: (L2 ++ (0x2e :: (Lf ++ (u0 :: (U2 ++ rest)))))) 0 =
      some (accVal 0 (c :: L2), 0x2e :: (Lf ++ (u0 :: (U2 ++ rest)))) := by
    have h := leading_int_spec (c :: L2) (0x2e :: (Lf ++ (u0 :: (U2 ++ rest)))) 0 hL
      (Or.inr ⟨0x2e, Lf ++ (u0 :: (U2 ++ rest)), rfl, by decide⟩) hn
    simpa [List.append_assoc] using h
  have hfrac : leading_fraction (Lf ++ (u0 :: (U2 ++ rest))) 0 ⟨1, 1⟩ false =
      (accVal 0 Lf, scale_iter ⟨1, 1⟩ Lf.length, u0 :: (U2 ++ rest)) := by
    have h := leading_fraction_spec Lf (u0 :: (U2 ++ rest)) 0 ⟨1, 1⟩ hLf
      (Or.inr ⟨u0, U2 ++ rest, rfl, hu0⟩) hfb
    simpa [List.append_assoc] using h
  have hul : unit_len (u0 :: (U2 ++ rest)) = (u0 :: U2).length := by
    have h := unit_len_append (u0 :: U2) rest hU hrest
    simpa [List.append_assoc] using h
  have htake : List.take (u0 :: U2).length (u0 :: (U2 ++ rest)) = u0 :: U2 := by
    have h := List.take_left (u0 :: U2) rest
    simpa [List.append_assoc] using h
  have hdrop : List.drop (u0 :: U2).length (u0 :: (U2 ++ rest)) = rest := by
    have h := List.drop_left (u0 :: U2) rest
    simpa [List.append_assoc] using h
  have hLflen : Lf.length ≠ 0 := by
    cases Lf with
    | nil => exact absurd rfl hLf0
    | cons a b => simp
  simp only [List.cons_append, List.append_assoc]
  simp only [parse_term]
  rw [if_neg (not_not_intro (Or.inr hc)), hint]
  simp only [parse_frac, eq_self_iff_true, if_true]
  rw [hfrac]
  dsimp only
  rw [if_neg (by
    rintro ⟨-, h2⟩
    rw [decide_eq_false_iff_not] at h2
    apply h2
    simp only [List.length_cons, List.length_append]
    omega)]
  rw [hul, if_neg (by simp), htake, hdrop, hmap]
  dsimp only
  rw [if_neg (by omega), if_pos hf0]
  have hscale : (scale_iter ⟨1, 1⟩ Lf.length).exactNat (10 ^ Lf.length) := by
    have h1 : (1 : ℕ) * 10 ^ Lf.length < 2 ^ 53 := by
      have h2 : (10 : ℕ) ^ Lf.length ≤ 10 ^ 9 := Nat.pow_le_pow_right (by omega) (by omega)
      have h3 : (10 : ℕ) ^ 9 < 2 ^ 53 := by norm_num
      omega
    have := scale_iter_exactNat Lf.length ⟨1, 1⟩ 1
      ⟨by norm_num, by norm_num, by norm_num⟩ (by omega) h1
    simpa using this
  have hfk : accVal 0 Lf < 10 ^ Lf.length := by
    have := accVal_lt 0 Lf hLf
    simpa using this
  have hcontrib := frac_contrib_exact (accVal 0 Lf) Lf.length prec
    (scale_iter ⟨1, 1⟩ Lf.length) hscale hk hprec hf0 hfk
  rw [hcontrib]
  have hmod : (accVal 0 (c :: L2) * 10 ^ prec + accVal 0 Lf * 10 ^ (prec - Lf.length)) % 2 ^ 64 =
      accVal 0 (c :: L2) * 10 ^ prec + accVal 0 Lf * 10 ^ (prec - Lf.length) :=
    Nat.mod_eq_of_lt (by omega)
  rw [hmod]
  rw [if_neg (by omega)]

/-! ### Termination bookkeeping for the term loop -/

theorem leading_int_length : ∀ (s : List ℕ) (x v : ℕ) (s1 : List ℕ),
    leading_int s x = some (v, s1) → s1.length ≤ s.length := by
  intro s
  induction s with
  | nil =>
    intro x v s1 h
    simp only [leading_int, Option.some.injEq, Prod.mk.injEq] at h
    rw [← h.2]
  | cons c t ih =>
    intro x v s1 h
    rw [leading_int] at h
    by_cases hd : isDigit c = false
    · rw [if_pos hd] at h
      simp only [Option.some.injEq, Prod.mk.injEq] at h
      rw [← h.2]
    · rw [if_neg hd] at h
      by_cases h1 : 2 ^ 63 / 10 < x
      · rw [if_pos h1] at h
        exact absurd h (by simp)
      · rw [if_neg h1] at h
        have h2 : (if 2 ^ 63 < x * 10 + (c - 0x30) then none
            else leading_int t (x * 10 + (c - 0x30))) = some (v, s1) := h
        by_cases h3 : 2 ^ 63 < x * 10 + (c - 0x30)
        · rw [if_pos h3] at h2
          exact absurd h2 (by simp)
        · rw [if_neg h3] at h2
          have := ih _ _ _ h2
          simp only [List.length_cons]
          omega

theorem leading_fraction_length : ∀ (s : List ℕ) (x : ℕ) (sc : F64) (ov : Bool),
    (leading_fraction s x sc ov).2.2.length ≤ s.length := by
  intro s
  induction s with
  | nil => intro x sc ov; simp [leading_fraction]
  | cons c t ih =>
    intro x sc ov
    rw [leading_fraction]
    by_cases hd : isDigit c = false
    · rw [if_pos hd]
    · rw [if_neg hd]
      by_cases hov : ov = true
      · rw [if_pos hov]
        have := ih x sc ov
        simp only [List.length_cons]
        omega
      · rw [if_neg hov]
        by_cases h1 : (2 ^ 63 - 1) / 10 < x
        · rw [if_pos h1]
          have := ih x sc true
          simp only [List.length_cons]
          omega
        · rw [if_neg h1]
          have he : (let y := x * 10 + (c - 0x30);
              if 2 ^ 63 ≤ y then leading_fraction t x sc true
              else leading_fraction t y (fmul sc ⟨10, 1⟩) ov) =
              (if 2 ^ 63 ≤ x * 10 + (c - 0x30) then leading_fraction t x sc true
              else leading_fraction t (x * 10 + (c - 0x30)) (fmul sc ⟨10, 1⟩) ov) := rfl
          rw [he]
          by_cases h2 : 2 ^ 63 ≤ x * 10 + (c - 0x30)
          · rw [if_pos h2]
            have := ih x sc true
            simp only [List.length_cons]
            omega
          · rw [if_neg h2]
            have := ih (x * 10 + (c - 0x30)) (fmul sc ⟨10, 1⟩) ov
            simp only [List.length_cons]
            omega

theorem parse_frac_length (s1 : List ℕ) : (parse_frac s1).2.2.1.length ≤ s1.length := by
  cases s1 with
  | nil => simp [parse_frac]
  | cons c t =>
    rw [parse_frac]
    split
    · have h := leading_fraction_length t 0 ⟨1, 1⟩ false
      rcases hEq : leading_fraction t 0 ⟨1, 1⟩ false with ⟨f, scale, s2⟩
      rw [hEq] at h
      dsimp only at h ⊢
      simp only [List.length_cons]
      omega
    · simp

theorem unit_len_le (s : List ℕ) : unit_len s ≤ s.length := by
  induction s with
  | nil => simp [unit_len]
  | cons a b ihb =>
    rw [unit_len]
    split
    · simp
    · simp only [List.length_cons]
      omega

theorem parse_term_length (s : List ℕ) (v : ℕ) (rest : List ℕ)
    (h : parse_term s = .ok (v, rest)) : rest.length < s.length := by
  cases s with
  | nil => exact Except.noConfusion h
  | cons c0 s0 =>
    simp only [parse_term] at h
    split at h
    · exact Except.noConfusion h
    · rcases hli : leading_int (c0 :: s0) 0 with - | ⟨v1, s1⟩
      · rw [hli] at h
        exact Except.noConfusion h
      · rw [hli] at h
        dsimp only at h
        have hs1 := leading_int_length _ _ _ _ hli
        have hs2 := parse_frac_length s1
        rcases hpf : parse_frac s1 with ⟨f, scale, s2, post⟩
        rw [hpf] at h hs2
        dsimp only at h hs2
        split at h
        · exact Except.noConfusion h
        · split at h
          · exact Except.noConfusion h
          · rename ¬ unit_len s2 = 0 => hul
            have hulle : unit_len s2 ≤ s2.length := unit_len_le s2
            split at h
            · exact Except.noConfusion h
            · split at h
              · exact Except.noConfusion h
              · split at h
                · split at h
                  · exact Except.noConfusion h
                  · simp only [Except.ok.injEq, Prod.mk.injEq] at h
                    rw [← h.2, List.length_drop]
                    simp only [List.length_cons] at hs1 ⊢
                    omega
                · simp only [Except.ok.injEq, Prod.mk.injEq] at h
                  rw [← h.2, List.length_drop]
                  simp only [List.length_cons] at hs1 ⊢
                  omega

theorem terms_loop_step (fuel : ℕ) (c : ℕ) (t rest : List ℕ) (d v : ℕ)
    (hp : parse_term (c :: t) = .ok (v, rest))
    (hd : (d + v) % 2 ^ 64 ≤ 2 ^ 63) :
    terms_loop (fuel + 1) (c :: t) d = terms_loop fuel rest ((d + v) % 2 ^ 64) := by
  rw [terms_loop, hp]
  simp only
  rw [if_neg (by omega)]

theorem terms_loop_fuel : ∀ (n : ℕ) (s : List ℕ), s.length ≤ n →
    ∀ (f1 f2 d : ℕ), s.length < f1 → s.length < f2 →
      terms_loop f1 s d = terms_loop f2 s d := by
  intro n
  induction n with
  | zero =>
    intro s hs f1 f2 d h1 h2
    have : s = [] := List.length_eq_zero.1 (by omega)
    subst this
    cases f1 with
    | zero => omega
    | succ f1 =>
      cases f2 with
      | zero => omega
      | succ f2 => rfl
  | succ n ih =>
    intro s hs f1 f2 d h1 h2
    cases s with
    | nil =>
      cases f1 with
      | zero => omega
      | succ f1 =>
        cases f2 with
        | zero => omega
        | succ f2 => rfl
    | cons c t =>
      cases f1 with
      | zero => simp at h1
      | succ f1 =>
        cases f2 with
        | zero => simp at h2
        | succ f2 =>
          rw [terms_loop, terms_loop]
          rcases hp : parse_term (c :: t) with e | ⟨v, rest⟩
          · rfl
          · simp only
            have hlen := parse_term_length _ _ _ hp
            split
            · rfl
            · apply ih rest
              · simp only [List.length_cons] at hlen hs
                omega
              · simp only [List.length_cons] at hlen h1
                omega
              · simp only [List.length_cons] at hlen h2
                omega

set_option maxRecDepth 1000000 in
/-- Witness for C3 at the input `.5s`: contribution `500000000`. -/
theorem term_contribution_f64_witness :
    parse_term [0x2e, 0x35, 0x73] = .ok ((0 * 1000000000 +
      frac_contrib 5 1000000000 ⟨5629499534213120, 562949953421312⟩) % 2 ^ 64,
      List.drop (unit_len [0x73]) [0x73]) :=
  term_contribution_f64 [0x2e, 0x35, 0x73] [0x35, 0x73] [0x73] 0 5 1000000000
    ⟨5629499534213120, 562949953421312⟩ (by decide) (by decide) (by decide)
    (by decide) (by decide) (by decide) (by decide) (by decide)

/-! ### Parsing the terms the formatter emits -/

/-- Parsing one formatted term: an integer part `w` printed by `fmt_int`,
the fraction printed by `fmt_frac u prec`, and a unit worth `10 ^ prec`,
yields `w * 10 ^ prec + u % 10 ^ prec` and leaves `rest`. -/
theorem parse_term_fmt (w u prec : ℕ) (U rest : List ℕ)
    (hmap : unit_map U = some (10 ^ prec))
    (hU : ∀ c ∈ U, ¬(c = 0x2e ∨ isDigit c = true)) (hU0 : U ≠ [])
    (hrest : rest = [] ∨ ∃ c rs, rest = c :: rs ∧ (c = 0x2e ∨ isDigit c = true))
    (hprec : prec ≤ 9) (hw18 : w < 10 ^ 18)
    (hwv : w ≤ 2 ^ 63 / 10 ^ prec)
    (hov : w * 10 ^ prec + u % 10 ^ prec ≤ 2 ^ 63) :
    parse_term (fmt_int w ++ (fmt_frac u prec).1 ++ U ++ rest) =
      .ok (w * 10 ^ prec + u % 10 ^ prec, rest) := by
  obtain ⟨hDig, hLen, hVal⟩ := fmt_int_spec w hw18
  have hL0 : fmt_int w ≠ [] := by
    intro he
    rw [he] at hLen
    simp at hLen
  have hvw : accVal 0 (fmt_int w) = w := by
    have := hVal 0
    omega
  obtain ⟨-, hcase⟩ := fmt_frac_spec prec u
  rcases hcase with ⟨hmod, hfr⟩ | ⟨Lf, hfr, hfDig, hfLen, hfLenLe, hfPos, hfVal⟩
  · rw [hfr, List.append_nil]
    have h := parse_term_no_frac (fmt_int w) U rest (10 ^ prec) hDig hL0
      (by rw [hvw]; exact hw18) hU hU0 hrest hmap (by rw [hvw]; exact hwv)
    rw [hvw] at h
    rw [hmod, Nat.add_zero]
    exact h
  · rw [hfr]
    have hLf0 : Lf ≠ [] := by
      intro he
      rw [he] at hfLen
      simp at hfLen
    have hfb : accVal 0 Lf < 10 ^ 18 := by
      have hx : accVal 0 Lf * 1 ≤ accVal 0 Lf * 10 ^ (prec - Lf.length) :=
        Nat.mul_le_mul_left _ (Nat.one_le_pow _ _ (by omega))
      rw [hfVal] at hx
      have hy : u % 10 ^ prec < 10 ^ prec := Nat.mod_lt _ (pow_pos (by omega) prec)
      have hz : (10 : ℕ) ^ prec ≤ 10 ^ 9 := Nat.pow_le_pow_right (by omega) hprec
      omega
    have h := parse_term_frac (fmt_int w) Lf U rest prec hDig hL0
      (by rw [hvw]; exact hw18) hfDig hLf0 hfb hfPos hfLenLe hprec hU hU0 hrest hmap
      (by rw [hvw]; exact hwv) (by rw [hvw, hfVal]; exact hov)
    rw [hvw, hfVal] at h
    exact h

theorem terms_loop_nil (fuel d : ℕ) : terms_loop fuel [] d = .ok d := by
  cases fuel <;> rfl

/-- Running the loop over a formatted seconds term (the final term of any
second-or-larger magnitude) adds its value to the accumulator and
terminates. -/
theorem terms_loop_sec (u d0 : ℕ) (h1 : 10 ^ 9 ≤ u) (h2 : u ≤ 2 ^ 63 - 1)
    (hd0 : d0 + (u / 10 ^ 9 % 60) * 10 ^ 9 + u % 10 ^ 9 ≤ 2 ^ 63) :
    ∀ fuel : ℕ, 0 < fuel →
      terms_loop fuel (fmt_int (u / 10 ^ 9 % 60) ++ (fmt_frac u 9).1 ++ [0x73]) d0 =
        .ok (d0 + ((u / 10 ^ 9 % 60) * 10 ^ 9 + u % 10 ^ 9)) := by
  intro fuel hfuel
  have hp : parse_term (fmt_int (u / 10 ^ 9 % 60) ++ (fmt_frac u 9).1 ++ [0x73] ++ []) =
      .ok ((u / 10 ^ 9 % 60) * 10 ^ 9 + u % 10 ^ 9, []) :=
    parse_term_fmt (u / 10 ^ 9 % 60) u 9 [0x73] [] (by decide) (by decide) (by simp)
      (Or.inl rfl) (by omega) (by omega) (by omega) (by omega)
  rw [List.append_nil] at hp
  obtain ⟨c, t0, hc, -⟩ := fmt_int_head (u / 10 ^ 9 % 60) (by omega)
  cases fuel with
  | zero => omega
  | succ k =>
    rw [hc] at hp ⊢
    simp only [List.cons_append] at hp ⊢
    have hm : (d0 + ((u / 10 ^ 9 % 60) * 10 ^ 9 + u % 10 ^ 9)) % 2 ^ 64 =
        d0 + ((u / 10 ^ 9 % 60) * 10 ^ 9 + u % 10 ^ 9) := Nat.mod_eq_of_lt (by omega)
    rw [terms_loop_step k c _ [] d0 _ hp (by rw [hm]; omega), terms_loop_nil, hm]

/-! ### The shape of the formatter output, case by case -/

theorem format_body_ns (u : ℕ) (h0 : u ≠ 0) (h : u < 1000) :
    format_body u = fmt_int (fmt_frac u 0).2 ++ (fmt_frac u 0).1 ++ [0x6e, 0x73] := by
  simp only [format_body]
  rw [if_pos (show u < 1000000000 by omega), if_neg h0, if_pos h]

theorem format_body_us (u : ℕ) (h3 : 1000 ≤ u) (h : u < 1000000) :
    format_body u = fmt_int (fmt_frac u 3).2 ++ (fmt_frac u 3).1 ++ [0xc2, 0xb5, 0x73] := by
  simp only [format_body]
  rw [if_pos (show u < 1000000000 by omega), if_neg (show ¬ u = 0 by omega),
    if_neg (show ¬ u < 1000 by omega), if_pos h]

theorem format_body_ms (u : ℕ) (h6 : 1000000 ≤ u) (h : u < 1000000000) :
    format_body u = fmt_int (fmt_frac u 6).2 ++ (fmt_frac u 6).1 ++ [0x6d, 0x73] := by
  simp only [format_body]
  rw [if_pos h, if_neg (show ¬ u = 0 by omega),
    if_neg (show ¬ u < 1000 by omega), if_neg (show ¬ u < 1000000 by omega)]

theorem format_body_sec (u : ℕ) (h9 : 1000000000 ≤ u) (hm : u / 10 ^ 9 / 60 = 0) :
    format_body u = fmt_int (u / 10 ^ 9 % 60) ++ (fmt_frac u 9).1 ++ [0x73] := by
  have hfs := (fmt_frac_spec 9 u).1
  simp only [format_body]
  rw [if_neg (show ¬ u < 1000000000 by omega), hfs, hm,
    if_neg (show ¬ 0 < 0 by omega)]

theorem format_body_min (u : ℕ) (h9 : 1000000000 ≤ u)
    (hm : 0 < u / 10 ^ 9 / 60) (hh : u / 10 ^ 9 / 60 / 60 = 0) :
    format_body u = fmt_int (u / 10 ^ 9 / 60 % 60) ++ [0x6d] ++
      (fmt_int (u / 10 ^ 9 % 60) ++ (fmt_frac u 9).1 ++ [0x73]) := by
  have hfs := (fmt_frac_spec 9 u).1
  simp only [format_body]
  rw [if_neg (show ¬ u < 1000000000 by omega), hfs, if_pos hm, hh,
    if_neg (show ¬ 0 < 0 by omega)]

theorem format_body_hour (u : ℕ) (h9 : 1000000000 ≤ u)
    (hh : 0 < u / 10 ^ 9 / 60 / 60) :
    format_body u = fmt_int (u / 10 ^ 9 / 60 / 60) ++ [0x68] ++
      (fmt_int (u / 10 ^ 9 / 60 % 60) ++ [0x6d] ++
        (fmt_int (u / 10 ^ 9 % 60) ++ (fmt_frac u 9).1 ++ [0x73])) := by
  have hfs := (fmt_frac_spec 9 u).1
  have hm : 0 < u / 10 ^ 9 / 60 := by
    by_contra hc
    rw [show u / 10 ^ 9 / 60 = 0 by omega] at hh
    simp at hh
  simp only [format_body]
  rw [if_neg (show ¬ u < 1000000000 by omega), hfs, if_pos hm, if_pos hh]

/-- Running the loop over a formatted minutes term followed by the seconds
term adds both values and terminates. -/
theorem terms_loop_min_sec (u d0 : ℕ) (h1 : 10 ^ 9 ≤ u) (h2 : u ≤ 2 ^ 63 - 1)
    (hd0 : d0 + (u / 10 ^ 9 / 60 % 60) * 60000000000 +
      (u / 10 ^ 9 % 60) * 10 ^ 9 + u % 10 ^ 9 ≤ 2 ^ 63) :
    ∀ fuel : ℕ,
      (fmt_int (u / 10 ^ 9 / 60 % 60) ++ [0x6d] ++
        (fmt_int (u / 10 ^ 9 % 60) ++ (fmt_frac u 9).1 ++ [0x73])).length < fuel →
      terms_loop fuel
        (fmt_int (u / 10 ^ 9 / 60 % 60) ++ [0x6d] ++
          (fmt_int (u / 10 ^ 9 % 60) ++ (fmt_frac u 9).1 ++ [0x73])) d0 =
        .ok (d0 + ((u / 10 ^ 9 / 60 % 60) * 60000000000 +
          (u / 10 ^ 9 % 60) * 10 ^ 9 + u % 10 ^ 9)) := by
  intro fuel hfuel
  obtain ⟨hDig1, hLen1, hVal1⟩ := fmt_int_spec (u / 10 ^ 9 / 60 % 60) (by omega)
  have hL0 : fmt_int (u / 10 ^ 9 / 60 % 60) ≠ [] := by
    intro he
    rw [he] at hLen1
    simp at hLen1
  have hvw : accVal 0 (fmt_int (u / 10 ^ 9 / 60 % 60)) = u / 10 ^ 9 / 60 % 60 := by
    have := hVal1 0
    omega
  obtain ⟨c2, t2, hc2, hcd2⟩ := fmt_int_head (u / 10 ^ 9 % 60) (by omega)
  have hsec : fmt_int (u / 10 ^ 9 % 60) ++ (fmt_frac u 9).1 ++ [0x73] =
      c2 :: ((t2 ++ (fmt_frac u 9).1) ++ [0x73]) := by
    rw [hc2]
    simp only [List.cons_append]
  have hp1 : parse_term (fmt_int (u / 10 ^ 9 / 60 % 60) ++ [0x6d] ++
      (fmt_int (u / 10 ^ 9 % 60) ++ (fmt_frac u 9).1 ++ [0x73])) =
      .ok ((u / 10 ^ 9 / 60 % 60) * 60000000000,
        fmt_int (u / 10 ^ 9 % 60) ++ (fmt_frac u 9).1 ++ [0x73]) := by
    have h := parse_term_no_frac (fmt_int (u / 10 ^ 9 / 60 % 60)) [0x6d]
      (fmt_int (u / 10 ^ 9 % 60) ++ (fmt_frac u 9).1 ++ [0x73]) 60000000000
      hDig1 hL0 (by rw [hvw]; omega) (by decide) (by simp)
      (Or.inr ⟨c2, (t2 ++ (fmt_frac u 9).1) ++ [0x73], hsec, Or.inr hcd2⟩)
      (by decide) (by rw [hvw]; omega)
    rw [hvw] at h
    exact h
  obtain ⟨c1, t1, hc1, -⟩ := fmt_int_head (u / 10 ^ 9 / 60 % 60) (by omega)
  cases fuel with
  | zero => omega
  | succ k =>
    rw [hc1] at hp1 ⊢
    simp only [List.cons_append] at hp1 ⊢
    have hm1 : (d0 + (u / 10 ^ 9 / 60 % 60) * 60000000000) % 2 ^ 64 =
        d0 + (u / 10 ^ 9 / 60 % 60) * 60000000000 := Nat.mod_eq_of_lt (by omega)
    rw [terms_loop_step k c1 _ _ d0 _ hp1 (by rw [hm1]; omega), hm1]
    have hk : 0 < k := by
      have := hfuel
      simp only [hc1, List.length_append, List.length_cons, List.length_nil] at this
      omega
    rw [terms_loop_sec u (d0 + (u / 10 ^ 9 / 60 % 60) * 60000000000) h1 h2
      (by omega) k hk]
    simp only [Except.ok.injEq]
    omega

/-- Running the term loop on the formatter body of a positive magnitude
`u ≤ 2 ^ 63 - 1` recovers exactly `u`. -/
theorem terms_loop_format_body (u : ℕ) (h1 : 1 ≤ u) (h2 : u ≤ 2 ^ 63 - 1) :
    ∀ fuel : ℕ, (format_body u).length < fuel →
      terms_loop fuel (format_body u) 0 = .ok u := by
  intro fuel hfuel
  by_cases hns : u < 1000
  · rw [format_body_ns u (by omega) hns] at hfuel ⊢
    rw [(fmt_frac_spec 0 u).1] at hfuel ⊢
    have hp : parse_term (fmt_int (u / 10 ^ 0) ++ (fmt_frac u 0).1 ++ [0x6e, 0x73] ++ []) =
        .ok (u / 10 ^ 0 * 10 ^ 0 + u % 10 ^ 0, []) :=
      parse_term_fmt (u / 10 ^ 0) u 0 [0x6e, 0x73] [] (by decide) (by decide) (by simp)
        (Or.inl rfl) (by omega) (by omega) (by omega) (by omega)
    rw [List.append_nil] at hp
    obtain ⟨c, t0, hc, -⟩ := fmt_int_head (u / 10 ^ 0) (by omega)
    cases fuel with
    | zero => omega
    | succ k =>
      rw [hc] at hp ⊢
      simp only [List.cons_append] at hp ⊢
      have hm : (0 + (u / 10 ^ 0 * 10 ^ 0 + u % 10 ^ 0)) % 2 ^ 64 =
          0 + (u / 10 ^ 0 * 10 ^ 0 + u % 10 ^ 0) := Nat.mod_eq_of_lt (by omega)
      rw [terms_loop_step k c _ [] 0 _ hp (by rw [hm]; omega), terms_loop_nil, hm]
      simp only [Except.ok.injEq]
      omega
  · by_cases hus : u < 1000000
    · rw [format_body_us u (by omega) hus] at hfuel ⊢
      rw [(fmt_frac_spec 3 u).1] at hfuel ⊢
      have hp : parse_term
          (fmt_int (u / 10 ^ 3) ++ (fmt_frac u 3).1 ++ [0xc2, 0xb5, 0x73] ++ []) =
          .ok (u / 10 ^ 3 * 10 ^ 3 + u % 10 ^ 3, []) :=
        parse_term_fmt (u / 10 ^ 3) u 3 [0xc2, 0xb5, 0x73] [] (by decide) (by decide)
          (by simp) (Or.inl rfl) (by omega) (by omega) (by omega) (by omega)
      rw [List.append_nil] at hp
      obtain ⟨c, t0, hc, -⟩ := fmt_int_head (u / 10 ^ 3) (by omega)
      cases fuel with
      | zero => omega
      | succ k =>
        rw [hc] at hp ⊢
        simp only [List.cons_append] at hp ⊢
        have hm : (0 + (u / 10 ^ 3 * 10 ^ 3 + u % 10 ^ 3)) % 2 ^ 64 =
            0 + (u / 10 ^ 3 * 10 ^ 3 + u % 10 ^ 3) := Nat.mod_eq_of_lt (by omega)
        rw [terms_loop_step k c _ [] 0 _ hp (by rw [hm]; omega), terms_loop_nil, hm]
        simp only [Except.ok.injEq]
        omega
    · by_cases hms : u < 1000000000
      · rw [format_body_ms u (by omega) hms] at hfuel ⊢
        rw [(fmt_frac_spec 6 u).1] at hfuel ⊢
        have hp : parse_term
            (fmt_int (u / 10 ^ 6) ++ (fmt_frac u 6).1 ++ [0x6d, 0x73] ++ []) =
            .ok (u / 10 ^ 6 * 10 ^ 6 + u % 10 ^ 6, []) :=
          parse_term_fmt (u / 10 ^ 6) u 6 [0x6d, 0x73] [] (by decide) (by decide)
            (by simp) (Or.inl rfl) (by omega) (by omega) (by omega) (by omega)
        rw [List.append_nil] at hp
        obtain ⟨c, t0, hc, -⟩ := fmt_int_head (u / 10 ^ 6) (by omega)
        cases fuel with
        | zero => omega
        | succ k =>
          rw [hc] at hp ⊢
          simp only [List.cons_append] at hp ⊢
          have hm : (0 + (u / 10 ^ 6 * 10 ^ 6 + u % 10 ^ 6)) % 2 ^ 64 =
              0 + (u / 10 ^ 6 * 10 ^ 6 + u % 10 ^ 6) := Nat.mod_eq_of_lt (by omega)
          rw [terms_loop_step k c _ [] 0 _ hp (by rw [hm]; omega), terms_loop_nil, hm]
          simp only [Except.ok.injEq]
          omega
      · by_cases hmin : u / 10 ^ 9 / 60 = 0
        · rw [format_body_sec u (by omega) hmin] at hfuel ⊢
          rw [terms_loop_sec u 0 (by omega) h2 (by omega) fuel (by omega)]
          simp only [Except.ok.injEq]
          omega
        · by_cases hhr : u / 10 ^ 9 / 60 / 60 = 0
          · rw [format_body_min u (by omega) (by omega) hhr] at hfuel ⊢
            rw [terms_loop_min_sec u 0 (by omega) h2 (by omega) fuel hfuel]
            simp only [Except.ok.injEq]
            omega
          · rw [format_body_hour u (by omega) (by omega)] at hfuel ⊢
            obtain ⟨hDig3, hLen3, hVal3⟩ := fmt_int_spec (u / 10 ^ 9 / 60 / 60) (by omega)
            have hL03 : fmt_int (u / 10 ^ 9 / 60 / 60) ≠ [] := by
              intro he
              rw [he] at hLen3
              simp at hLen3
            have hvw3 : accVal 0 (fmt_int (u / 10 ^ 9 / 60 / 60)) =
                u / 10 ^ 9 / 60 / 60 := by
              have := hVal3 0
              omega
            obtain ⟨c2, t2, hc2, hcd2⟩ := fmt_int_head (u / 10 ^ 9 / 60 % 60) (by omega)
            have hmins : fmt_int (u / 10 ^ 9 / 60 % 60) ++ [0x6d] ++
                (fmt_int (u / 10 ^ 9 % 60) ++ (fmt_frac u 9).1 ++ [0x73]) =
                c2 :: ((t2 ++ [0x6d]) ++
                  (fmt_int (u / 10 ^ 9 % 60) ++ (fmt_frac u 9).1 ++ [0x73])) := by
              rw [hc2]
              simp only [List.cons_append]
            have hp3 : parse_term (fmt_int (u / 10 ^ 9 / 60 / 60) ++ [0x68] ++
                (fmt_int (u / 10 ^ 9 / 60 % 60) ++ [0x6d] ++
                  (fmt_int (u / 10 ^ 9 % 60) ++ (fmt_frac u 9).1 ++ [0x73]))) =
                .ok ((u / 10 ^ 9 / 60 / 60) * 3600000000000,
                  fmt_int (u / 10 ^ 9 / 60 % 60) ++ [0x6d] ++
                    (fmt_int (u / 10 ^ 9 % 60) ++ (fmt_frac u 9).1 ++ [0x73])) := by
              have h := parse_term_no_frac (fmt_int (u / 10 ^ 9 / 60 / 60)) [0x68]
                (fmt_int (u / 10 ^ 9 / 60 % 60) ++ [0x6d] ++
                  (fmt_int (u / 10 ^ 9 % 60) ++ (fmt_frac u 9).1 ++ [0x73]))
                3600000000000 hDig3 hL03 (by rw [hvw3]; omega) (by decide) (by simp)
                (Or.inr ⟨c2, (t2 ++ [0x6d]) ++
                  (fmt_int (u / 10 ^ 9 % 60) ++ (fmt_frac u 9).1 ++ [0x73]),
                  hmins, Or.inr hcd2⟩)
                (by decide) (by rw [hvw3]; omega)
              rw [hvw3] at h
              exact h
            obtain ⟨c3, t3, hc3, -⟩ := fmt_int_head (u / 10 ^ 9 / 60 / 60) (by omega)
            cases fuel with
            | zero => omega
            | succ k =>
              rw [hc3] at hp3 ⊢
              simp only [List.cons_append] at hp3 ⊢
              have hm3 : (0 + (u / 10 ^ 9 / 60 / 60) * 3600000000000) % 2 ^ 64 =
                  0 + (u / 10 ^ 9 / 60 / 60) * 3600000000000 :=
                Nat.mod_eq_of_lt (by omega)
              rw [terms_loop_step k c3 _ _ 0 _ hp3 (by rw [hm3]; omega), hm3]
              have hk : (fmt_int (u / 10 ^ 9 / 60 % 60) ++ [0x6d] ++
                  (fmt_int (u / 10 ^ 9 % 60) ++ (fmt_frac u 9).1 ++ [0x73])).length < k := by
                have := hfuel
                simp only [hc3, List.length_append, List.length_cons,
                  List.length_nil] at this ⊢
                omega
              rw [terms_loop_min_sec u (0 + (u / 10 ^ 9 / 60 / 60) * 3600000000000)
                (by omega) h2 (by omega) k hk]
              simp only [Except.ok.injEq]
              omega

/-- The formatter body of a positive magnitude starts with a decimal digit
and has at least two bytes. -/
theorem format_body_head (u : ℕ) (h1 : 1 ≤ u) (h2 : u ≤ 2 ^ 63 - 1) :
    ∃ c t, format_body u = c :: t ∧ isDigit c = true ∧ t ≠ [] := by
  by_cases hns : u < 1000
  · rw [format_body_ns u (by omega) hns, (fmt_frac_spec 0 u).1]
    obtain ⟨c, t0, hc, hcd⟩ := fmt_int_head (u / 10 ^ 0) (by omega)
    refine ⟨c, (t0 ++ (fmt_frac u 0).1) ++ [0x6e, 0x73], ?_, hcd, by simp⟩
    rw [hc]
    simp only [List.cons_append]
  · by_cases hus : u < 1000000
    · rw [format_body_us u (by omega) hus, (fmt_frac_spec 3 u).1]
      obtain ⟨c, t0, hc, hcd⟩ := fmt_int_head (u / 10 ^ 3) (by omega)
      refine ⟨c, (t0 ++ (fmt_frac u 3).1) ++ [0xc2, 0xb5, 0x73], ?_, hcd, by simp⟩
      rw [hc]
      simp only [List.cons_append]
    · by_cases hms : u < 1000000000
      · rw [format_body_ms u (by omega) hms, (fmt_frac_spec 6 u).1]
        obtain ⟨c, t0, hc, hcd⟩ := fmt_int_head (u / 10 ^ 6) (by omega)
        refine ⟨c, (t0 ++ (fmt_frac u 6).1) ++ [0x6d, 0x73], ?_, hcd, by simp⟩
        rw [hc]
        simp only [List.cons_append]
      · by_cases hmin : u / 10 ^ 9 / 60 = 0
        · rw [format_body_sec u (by omega) hmin]
          obtain ⟨c, t0, hc, hcd⟩ := fmt_int_head (u / 10 ^ 9 % 60) (by omega)
          refine ⟨c, (t0 ++ (fmt_frac u 9).1) ++ [0x73], ?_, hcd, by simp⟩
          rw [hc]
          simp only [List.cons_append]
        · by_cases hhr : u / 10 ^ 9 / 60 / 60 = 0
          · rw [format_body_min u (by omega) (by omega) hhr]
            obtain ⟨c, t0, hc, hcd⟩ := fmt_int_head (u / 10 ^ 9 / 60 % 60) (by omega)
            refine ⟨c, (t0 ++ [0x6d]) ++
              (fmt_int (u / 10 ^ 9 % 60) ++ (fmt_frac u 9).1 ++ [0x73]), ?_, hcd, by simp⟩
            rw [hc]
            simp only [List.cons_append]
          · rw [format_body_hour u (by omega) (by omega)]
            obtain ⟨c, t0, hc, hcd⟩ := fmt_int_head (u / 10 ^ 9 / 60 / 60) (by omega)
            refine ⟨c, (t0 ++ [0x68]) ++
              (fmt_int (u / 10 ^ 9 / 60 % 60) ++ [0x6d] ++
                (fmt_int (u / 10 ^ 9 % 60) ++ (fmt_frac u 9).1 ++ [0x73])), ?_, hcd, by simp⟩
            rw [hc]
            simp only [List.cons_append]

/-- `from_str` on an input that starts with a digit and is not `"0"`: no
sign is stripped and the term loop runs on the whole input. -/
theorem from_str_cons (c : ℕ) (t : List ℕ) (hc : isDigit c = true)
    (hne : c :: t ≠ [0x30]) :
    from_str (c :: t) =
      match terms_loop ((c :: t).length + 1) (c :: t) 0 with
      | .error e => .error e
      | .ok d => finalize false d := by
  have hb : 0x30 ≤ c ∧ c ≤ 0x39 := by
    simp only [isDigit, Bool.and_eq_true, decide_eq_true_eq] at hc
    exact hc
  have h45 : ¬ (c = 0x2d ∨ c = 0x2b) := by omega
  simp only [from_str]
  rw [if_neg h45, if_neg hne, if_neg (by simp),
    decide_eq_false (show ¬ c = 0x2d by omega)]

theorem from_str_format_body_pos (u : ℕ) (h1 : 1 ≤ u) (h2 : u ≤ 2 ^ 63 - 1) :
    from_str (format_body u) = .ok (u : ℤ) := by
  obtain ⟨c, t, hct, hcd, htne⟩ := format_body_head u h1 h2
  have hne : c :: t ≠ [0x30] := by
    intro he
    injection he with he1 he2
    exact htne he2
  have hloop := terms_loop_format_body u h1 h2 ((format_body u).length + 1) (by omega)
  rw [hct] at hloop
  rw [hct, from_str_cons c t hcd hne, hloop]
  show finalize false u = .ok (u : ℤ)
  simp only [finalize]
  rw [if_neg (by simp), if_neg (show ¬ (2 ^ 63 - 1 < u) by omega)]

theorem from_str_format_body_neg (u : ℕ) (h1 : 1 ≤ u) (h2 : u ≤ 2 ^ 63 - 1) :
    from_str (0x2d :: format_body u) = .ok (-(u : ℤ)) := by
  obtain ⟨c, t, hct, hcd, htne⟩ := format_body_head u h1 h2
  have hne : c :: t ≠ [0x30] := by
    intro he
    injection he with he1 he2
    exact htne he2
  have hloop := terms_loop_format_body u h1 h2 ((format_body u).length + 1) (by omega)
  rw [hct] at hloop
  rw [hct]
  simp only [from_str]
  rw [if_pos (Or.inl trivial), if_neg hne, if_neg (by simp), hloop]
  show finalize true u = .ok (-(u : ℤ))
  simp only [finalize]
  rw [if_pos trivial, if_pos (show u < 2 ^ 63 by omega),
    if_neg (show ¬ ((u : ℤ) = -(2 ^ 63)) by omega)]

set_option maxRecDepth 1000000 in
/-- C1: for every Duration `d` (an `i64` nanosecond count, including the
endpoints `MIN = -2 ^ 63` and `MAX = 2 ^ 63 - 1`), parsing the string
produced by the formatter returns exactly `d`:
`from_str (format d) = .ok d`. -/
theorem parse_format_roundtrip (d : ℤ) (h1 : MIN ≤ d) (h2 : d ≤ MAX) :
    from_str (format d) = .ok d := by
  have hMIN : MIN = -(2 ^ 63) := rfl
  have hMAX : MAX = (2 : ℤ) ^ 63 - 1 := rfl
  rcases eq_or_lt_of_le h1 with hmin | hgt
  · rw [← hmin]
    decide
  · rcases lt_trichotomy d 0 with hneg | hzero | hpos
    · have hu1 : 1 ≤ d.natAbs := by omega
      have hu2 : d.natAbs ≤ 2 ^ 63 - 1 := by
        rw [hMIN] at hgt
        omega
      rw [format, if_neg (show ¬ d = -(2 ^ 63) by rw [hMIN] at hgt; omega), if_pos hneg]
      rw [from_str_format_body_neg d.natAbs hu1 hu2]
      congr 1
      omega
    · rw [hzero]
      decide
    · have hu1 : 1 ≤ d.natAbs := by omega
      have hu2 : d.natAbs ≤ 2 ^ 63 - 1 := by
        rw [hMAX] at h2
        omega
      rw [format, if_neg (show ¬ d = -(2 ^ 63) by omega),
        if_neg (show ¬ d < 0 by omega)]
      rw [from_str_format_body_pos d.natAbs hu1 hu2]
      congr 1
      omega

set_option maxRecDepth 1000000 in
/-- Witness for C1 at `d = 90500000000` (formatted `1m30.5s`). -/
theorem parse_format_roundtrip_witness :
    MIN ≤ (90500000000 : ℤ) ∧ (90500000000 : ℤ) ≤ MAX ∧
      from_str (format 90500000000) = .ok 90500000000 :=
  ⟨by decide, by decide, parse_format_roundtrip 90500000000 (by decide) (by decide)⟩

end TimeRs
